import Mathlib

/-!
A verification development for the front end of a small language
implementation: a character-level lexer and a precedence-climbing (Pratt)
expression parser producing an AST with a canonical string rendering.

The definitions below are a shallow embedding of the Go packages
`token`, `utils`, `lexer`, `ast` and `parser`:
* Go strings are Lean `String`s, Go `byte`s are Lean `Char`s (every input
  of interest is ASCII), the lexer's end sentinel byte 0 is `Char.ofNat 0`;
* Go's nil expression pointers are `Option` values; calling a method on a
  nil pointer (a Go panic) is modelled by an `Option`-valued rendering
  function returning `none`;
* the mutually recursive parser is written with an explicit fuel
  parameter, returning `none` only on fuel exhaustion; a theorem below
  shows a fuel linear in the input length always suffices, which is the
  embedding's form of the termination guarantee.
-/

namespace LlvmLang

/-- Symbol of `s` at byte index `i`, or the end sentinel byte 0 when out of
range (mirrors how Go code reads `source[i]` guarded by a length test). -/
def charAt (s : String) (i : Nat) : Char :=
  if i < s.length then s.data.getD i (Char.ofNat 0) else Char.ofNat 0

/-- Go slice `s[a:b]` (used only with `a ≤ b ≤ len s` by the lexer). -/
def substrRange (s : String) (a b : Nat) : String :=
  String.mk ((s.data.drop a).take (b - a))

/-! ## Package `token` -/

/-- The closed set of token kinds from `token/token.go`.  In Go a
`TokenType` is a string constant; the constants are pairwise distinct, so
the closed set is an inductive type here.  `ZeroValue` models the zero
value of the Go type (the empty string), which the parser's two freshly
initialised token fields hold before the first `nextToken` calls. -/
inductive TokenType where
  | Identifier | Number | String
  | Def | Extern
  | LeftParen | RightParen | LeftCurlyBracket | RightCurlyBracket
  | LeftSquareBracket | RightSquareBracket
  | Semicolon | Comma | Colon | Dot
  | Plus | Minus | Slash | Star | Modulo | Assign
  | GreaterThan | LessThan | Bang
  | EqualTo | GreaterThanEqualTo | LessThanEqualTo | NotEqualTo
  | And | Or
  | EOF | Illegal
  | ZeroValue
deriving DecidableEq, Repr

/-- The underlying Go string constant of each `TokenType` (used by the
parser's diagnostic messages, which format token types with `%s`). -/
def typeString : TokenType → String
  | .Identifier => "Identifier"
  | .Number => "Number"
  | .String => "String"
  | .Def => "Def"
  | .Extern => "Extern"
  | .LeftParen => "LeftParen"
  | .RightParen => "RightParen"
  | .LeftCurlyBracket => "LeftCurlyBracket"
  | .RightCurlyBracket => "RightCurlyBracket"
  | .LeftSquareBracket => "LeftSquareBracket"
  | .RightSquareBracket => "RightSquareBracket"
  | .Semicolon => "Semicolon"
  | .Comma => "Comma"
  | .Colon => "Colon"
  | .Dot => "Dot"
  | .Plus => "Plus"
  | .Minus => "Minus"
  | .Slash => "Slash"
  | .Star => "Star"
  | .Modulo => "Modulus"
  | .Assign => "Assign"
  | .GreaterThan => "GreaterThan"
  | .LessThan => "LessThan"
  | .Bang => "Bang"
  | .EqualTo => "Equality"
  | .GreaterThanEqualTo => "GreaterThanEqualTo"
  | .LessThanEqualTo => "LessThanEqualTo"
  | .NotEqualTo => "NotEqual"
  | .And => "And"
  | .Or => "Or"
  | .EOF => "EOF"
  | .Illegal => "Illegal"
  | .ZeroValue => ""

/-- `token.Token`. -/
structure Token where
  literal : String
  type : TokenType
deriving DecidableEq, Repr

/-- `token.MakeToken`. -/
def MakeToken (t : TokenType) (c : Char) : Token :=
  { type := t, literal := String.singleton c }

/-- The token emitted at end of input (`Literal: "", Type: "EOF"`). -/
def eofToken : Token := { literal := "", type := TokenType.EOF }

/-- Go's zero value of `token.Token`. -/
def goZeroToken : Token := { literal := "", type := TokenType.ZeroValue }

/-! ## Package `utils` -/

/-- `utils.IsAlpha`: the per-symbol regexp `^[a-zA-Z_]+$` on a single
byte, i.e. an ASCII letter or underscore. -/
def IsAlpha (c : Char) : Bool :=
  decide (('a' ≤ c ∧ c ≤ 'z') ∨ ('A' ≤ c ∧ c ≤ 'Z') ∨ c = '_')

/-- `utils.IsNumeric`: the per-symbol regexp `^[0-9]+$`, i.e. an ASCII
decimal digit. -/
def IsNumeric (c : Char) : Bool :=
  decide ('0' ≤ c ∧ c ≤ '9')

/-! ## Package `lexer`: state and transitions -/

/-- `lexer.Lexer`. -/
structure Lexer where
  source : String
  position : Nat
  readPosition : Nat
  char : Char
deriving DecidableEq, Repr

namespace Lexer

/-- `(*Lexer).readChar`. -/
def readChar (l : Lexer) : Lexer :=
  { l with
    char := if l.source.length ≤ l.readPosition then Char.ofNat 0
            else l.source.data.getD l.readPosition (Char.ofNat 0),
    position := l.readPosition,
    readPosition := l.readPosition + 1 }

/-- `lexer.New`: a fresh lexer (Go zero fields) after the set-up
`readChar` call. -/
def New (source : String) : Lexer :=
  readChar { source := source, position := 0, readPosition := 0, char := Char.ofNat 0 }

/-- `(*Lexer).peekChar`. -/
def peekChar (l : Lexer) : Char :=
  if l.source.length ≤ l.readPosition then Char.ofNat 0
  else l.source.data.getD l.readPosition (Char.ofNat 0)

/-- Decrease of the scanning-loop measure used for the lexer's
character-consuming loops: one `readChar` step from a state whose current
symbol is not the end sentinel shrinks it. -/
theorem loopMeasure_lt (len rp : Nat) (c c' : Char) (hc : ¬ c = Char.ofNat 0)
    (hc' : len ≤ rp → c' = Char.ofNat 0) :
    2 * (len + 1 - (rp + 1)) + (if c' = Char.ofNat 0 then 0 else 1) <
      2 * (len + 1 - rp) + (if c = Char.ofNat 0 then 0 else 1) := by
  rw [if_neg hc]
  by_cases h : len ≤ rp
  · rw [if_pos (hc' h)]
    omega
  · split <;> omega

/-- A guarded `for`-style scan loop of the lexer (used by
`skipWhitespace`, `readIdentifer` and `readNumber`), written with an
explicit structural step bound so that it evaluates by kernel reduction.
`scanLoop` below instantiates the bound with a provably sufficient value,
and `scanLoop_eq` recovers the Go loop equation. -/
def scanLoopGas (guard : Char → Bool) : Nat → Lexer → Lexer
  | 0, l => l
  | g + 1, l => if guard l.char then scanLoopGas guard g (readChar l) else l

/-- Step bound for `scanLoopGas`: the scan measure of a state. -/
def scanMeasure (l : Lexer) : Nat :=
  2 * (l.source.length + 1 - l.readPosition) + (if l.char = Char.ofNat 0 then 0 else 1)

/-- The result of `scanLoopGas` does not depend on the step bound once
the bound dominates the scan measure (for a guard rejecting the end
sentinel). -/
theorem scanLoopGas_irrel (guard : Char → Bool) (h0 : guard (Char.ofNat 0) = false) :
    ∀ g g' l, scanMeasure l ≤ g → scanMeasure l ≤ g' →
      scanLoopGas guard g l = scanLoopGas guard g' l := by
  intro g
  induction g with
  | zero =>
    intro g' l hg hg'
    have hchz : l.char = Char.ofNat 0 := by
      by_contra hne
      simp only [scanMeasure, if_neg hne] at hg
      omega
    have hguard : guard l.char = false := by rw [hchz]; exact h0
    cases g' with
    | zero => rfl
    | succ g' => simp [scanLoopGas, hguard]
  | succ g ih =>
    intro g' l hg hg'
    cases g' with
    | zero =>
      have hchz : l.char = Char.ofNat 0 := by
        by_contra hne
        simp only [scanMeasure, if_neg hne] at hg'
        omega
      have hguard : guard l.char = false := by rw [hchz]; exact h0
      simp [scanLoopGas, hguard]
    | succ g' =>
      by_cases hguard : guard l.char = true
      · simp only [scanLoopGas, hguard, if_true]
        have hne : ¬ l.char = Char.ofNat 0 := by
          intro h
          rw [h] at hguard
          rw [h0] at hguard
          cases hguard
        have hlt : scanMeasure (readChar l) < scanMeasure l := by
          simp only [scanMeasure, readChar]
          exact loopMeasure_lt l.source.length l.readPosition l.char _ hne
            (fun h => by simp [h])
        exact ih g' (readChar l) (by omega) (by omega)
      · simp only [Bool.not_eq_true] at hguard
        simp [scanLoopGas, hguard]

/-- A lexer scan loop: run while `guard` holds of the current symbol. -/
def scanLoop (guard : Char → Bool) (l : Lexer) : Lexer :=
  scanLoopGas guard (scanMeasure l) l

/-- The Go loop equation of `scanLoop`. -/
theorem scanLoop_eq (guard : Char → Bool) (h0 : guard (Char.ofNat 0) = false) (l : Lexer) :
    scanLoop guard l = if guard l.char then scanLoop guard (readChar l) else l := by
  by_cases hguard : guard l.char = true
  · have hne : ¬ l.char = Char.ofNat 0 := by
      intro h
      rw [h] at hguard
      rw [h0] at hguard
      cases hguard
    have hlt : scanMeasure (readChar l) < scanMeasure l := by
      simp only [scanMeasure, readChar]
      exact loopMeasure_lt l.source.length l.readPosition l.char _ hne (fun h => by simp [h])
    have h1 : 1 ≤ scanMeasure l := by
      simp only [scanMeasure, if_neg hne]
      omega
    rw [if_pos hguard]
    show scanLoopGas guard (scanMeasure l) l = scanLoop guard (readChar l)
    obtain ⟨m, hm⟩ : ∃ m, scanMeasure l = m + 1 := ⟨scanMeasure l - 1, by omega⟩
    rw [hm]
    simp only [scanLoopGas, hguard, if_true]
    exact scanLoopGas_irrel guard h0 m (scanMeasure (readChar l)) (readChar l)
      (by omega) (le_refl _)
  · simp only [Bool.not_eq_true] at hguard
    rw [if_neg (by simp [hguard])]
    cases hn : scanMeasure l with
    | zero => simp [scanLoop, hn, scanLoopGas]
    | succ m => simp [scanLoop, hn, scanLoopGas, hguard]

/-- The whitespace test of `(*Lexer).skipWhitespace`. -/
def isWhitespaceChar (c : Char) : Bool :=
  decide (c = ' ' ∨ c = '\t' ∨ c = '\n' ∨ c = '\r')

/-- `(*Lexer).skipWhitespace`. -/
def skipWhitespace (l : Lexer) : Lexer :=
  scanLoop isWhitespaceChar l

/-- The loop equation of `skipWhitespace`, exactly as in the source. -/
theorem skipWhitespace_eq (l : Lexer) :
    skipWhitespace l =
      if isWhitespaceChar l.char then skipWhitespace (readChar l) else l :=
  scanLoop_eq isWhitespaceChar (by decide) l

/-- The scanning loop of `(*Lexer).readIdentifer`. -/
def readIdentLoop (l : Lexer) : Lexer :=
  scanLoop IsAlpha l

/-- The loop equation of `readIdentLoop`. -/
theorem readIdentLoop_eq (l : Lexer) :
    readIdentLoop l = if IsAlpha l.char then readIdentLoop (readChar l) else l :=
  scanLoop_eq IsAlpha (by decide) l

/-- `(*Lexer).readIdentifer` (name as in the source): scans the maximal
alpha run and returns the new state with the scanned slice. -/
def readIdentifer (l : Lexer) : Lexer × String :=
  let l' := readIdentLoop l
  (l', substrRange l.source l.position l'.position)

/-- The guard of the `(*Lexer).readNumber` loop: digits and dots. -/
def isNumberChar (c : Char) : Bool :=
  IsNumeric c || c = '.'

/-- The scanning loop of `(*Lexer).readNumber`. -/
def readNumberLoop (l : Lexer) : Lexer :=
  scanLoop isNumberChar l

/-- The loop equation of `readNumberLoop`. -/
theorem readNumberLoop_eq (l : Lexer) :
    readNumberLoop l = if isNumberChar l.char then readNumberLoop (readChar l) else l :=
  scanLoop_eq isNumberChar (by decide) l

/-- `(*Lexer).readNumber`. -/
def readNumber (l : Lexer) : Lexer × String :=
  let l' := readNumberLoop l
  (l', substrRange l.source l.position l'.position)

/-- The do-while loop of `(*Lexer).readString` (advance, stop on a quote
or the end sentinel), with an explicit structural step bound; the bound
chosen by `readStringLoop` is exact, see `readStringLoop_eq`. -/
def readStrGas : Nat → Lexer → Lexer
  | 0, l => readChar l
  | g + 1, l =>
    let l' := readChar l
    if l'.char = '"' ∨ l'.char = Char.ofNat 0 then l' else readStrGas g l'

/-- The do-while loop of `(*Lexer).readString`. -/
def readStringLoop (l : Lexer) : Lexer :=
  readStrGas (l.source.length - l.readPosition) l

/-- The Go loop equation of `readStringLoop`. -/
theorem readStringLoop_eq (l : Lexer) :
    readStringLoop l =
      (fun l' => if l'.char = '"' ∨ l'.char = Char.ofNat 0 then l' else readStringLoop l')
        (readChar l) := by
  show readStrGas (l.source.length - l.readPosition) l = _
  cases hg : l.source.length - l.readPosition with
  | zero =>
    have hchz : (readChar l).char = Char.ofNat 0 := by
      simp only [readChar]
      rw [if_pos (by omega)]
    simp [readStrGas, hchz]
  | succ g =>
    simp only [readStrGas]
    by_cases hstop : (readChar l).char = '"' ∨ (readChar l).char = Char.ofNat 0
    · simp [hstop]
    · rw [if_neg hstop, if_neg hstop]
      show readStrGas g (readChar l) =
        readStrGas ((readChar l).source.length - (readChar l).readPosition) (readChar l)
      have : (readChar l).source.length - (readChar l).readPosition = g := by
        simp only [readChar]
        omega
      rw [this]

/-- `(*Lexer).readString`: records `position + 1`, runs the loop, and
returns the slice strictly between that start and the stop position. -/
def readString (l : Lexer) : Lexer × String :=
  let position := l.position + 1
  let l' := readStringLoop l
  (l', substrRange l.source position l'.position)

/-- `lexer.LookupIdent` with the fixed keyword table. -/
def LookupIdent (ident : String) : TokenType :=
  if ident = "def" then TokenType.Def
  else if ident = "extern" then TokenType.Extern
  else TokenType.Identifier

/-- The `switch` dispatch of `(*Lexer).NextToken`: case on the current
symbol (constant cases, then the default branch), advancing one symbol
before returning except on the two direct-return scanning branches. -/
def switchToken (l : Lexer) : Lexer × Token :=
  if l.char = '(' then (readChar l, MakeToken TokenType.LeftParen l.char)
  else if l.char = ')' then (readChar l, MakeToken TokenType.RightParen l.char)
  else if l.char = '{' then (readChar l, MakeToken TokenType.LeftCurlyBracket l.char)
  else if l.char = '}' then (readChar l, MakeToken TokenType.RightCurlyBracket l.char)
  else if l.char = '[' then (readChar l, MakeToken TokenType.LeftSquareBracket l.char)
  else if l.char = ']' then (readChar l, MakeToken TokenType.RightSquareBracket l.char)
  else if l.char = ';' then (readChar l, MakeToken TokenType.Semicolon l.char)
  else if l.char = ',' then (readChar l, MakeToken TokenType.Comma l.char)
  else if l.char = ':' then (readChar l, MakeToken TokenType.Colon l.char)
  else if l.char = '.' then (readChar l, MakeToken TokenType.Dot l.char)
  else if l.char = '"' then
    let r := readString l
    (readChar r.1, { literal := r.2, type := TokenType.String })
  else if l.char = '=' then
    if peekChar l = '=' then
      let c := l.char
      let l := readChar l
      (readChar l, { literal := String.singleton c ++ String.singleton l.char, type := TokenType.EqualTo })
    else (readChar l, MakeToken TokenType.Assign l.char)
  else if l.char = '+' then (readChar l, MakeToken TokenType.Plus l.char)
  else if l.char = '-' then (readChar l, MakeToken TokenType.Minus l.char)
  else if l.char = '*' then (readChar l, MakeToken TokenType.Star l.char)
  else if l.char = '/' then (readChar l, MakeToken TokenType.Slash l.char)
  else if l.char = '%' then (readChar l, MakeToken TokenType.Modulo l.char)
  else if l.char = '>' then
    if peekChar l = '=' then
      let c := l.char
      let l := readChar l
      (readChar l, { literal := String.singleton c ++ String.singleton l.char, type := TokenType.GreaterThanEqualTo })
    else (readChar l, MakeToken TokenType.GreaterThan l.char)
  else if l.char = '<' then
    if peekChar l = '=' then
      let c := l.char
      let l := readChar l
      (readChar l, { literal := String.singleton c ++ String.singleton l.char, type := TokenType.LessThanEqualTo })
    else (readChar l, MakeToken TokenType.LessThan l.char)
  else if l.char = '!' then
    if peekChar l = '=' then
      let c := l.char
      let l := readChar l
      (readChar l, { literal := String.singleton c ++ String.singleton l.char, type := TokenType.NotEqualTo })
    else (readChar l, MakeToken TokenType.Bang l.char)
  else if l.char = '&' then
    if peekChar l = '&' then
      let c := l.char
      let l := readChar l
      (readChar l, { literal := String.singleton c ++ String.singleton l.char, type := TokenType.And })
    else (readChar l, MakeToken TokenType.Illegal l.char)
  else if l.char = '|' then
    if peekChar l = '|' then
      let c := l.char
      let l := readChar l
      (readChar l, { literal := String.singleton c ++ String.singleton l.char, type := TokenType.Or })
    else (readChar l, MakeToken TokenType.Illegal l.char)
  else if l.char = Char.ofNat 0 then (readChar l, eofToken)
  else if IsAlpha l.char then
    let r := readIdentifer l
    (r.1, { literal := r.2, type := LookupIdent r.2 })
  else if IsNumeric l.char then
    let r := readNumber l
    (r.1, { literal := r.2, type := TokenType.Number })
  else (readChar l, MakeToken TokenType.Illegal l.char)

/-- `(*Lexer).NextToken`: skip whitespace, then the `switch` dispatch. -/
def NextToken (l : Lexer) : Lexer × Token :=
  switchToken (skipWhitespace l)

/-- Apply `NextToken` `n` times, keeping only the lexer state. -/
def advanceN (l : Lexer) : Nat → Lexer
  | 0 => l
  | n + 1 => advanceN (NextToken l).1 n

end Lexer

/-! ## Package `ast`

Go expression fields of interface type `ast.Expr` are nullable pointers;
the parser really does store nil there on sub-parse failures, so they are
`Option Expr` here.  `CallExpr.Arguments` is a Go slice that can be nil
(distinct from empty) when the argument list is malformed. -/

/-- The expression variants of `ast`: `NumberLiteral`, `Identifier`,
`PrefixExpr`, `InfixExpr`, `CallExpr`.  `NumberLiteral.Value` is a Go
`float64`; it is a rational here, which is exact on every literal the
lexer can produce and is never consulted by the rendering. -/
inductive Expr where
  | NumberLiteral (token : Token) (value : Rat)
  | Identifier (token : Token) (value : String)
  | PrefixExpr (token : Token) (operator : String) (right : Option Expr)
  | InfixExpr (token : Token) (left : Option Expr) (operator : String) (right : Option Expr)
  | CallExpr (token : Token) (function : Option Expr) (arguments : Option (List (Option Expr)))

/-- `ast.ExpressionStmt` (the only statement kind). -/
structure Stmt where
  token : Token
  expr : Option Expr

/-- `ast.Program`. -/
structure Program where
  stmts : List Stmt

mutual

/-- The `String()` rendering of an expression node.  Go dereferences the
operand pointers without nil checks (`PrefixExpr.String`,
`InfixExpr.String`, and `CallExpr.String` on the callee and each
argument), so a nil operand panics at runtime; that panic is modelled by
`none`.  A nil `Arguments` slice, by contrast, is ranged over like an
empty one in Go, so it renders as no arguments. -/
def exprString : Expr → Option String
  | .NumberLiteral tok _ => some tok.literal
  | .Identifier _ v => some v
  | .PrefixExpr _ _ none => none
  | .PrefixExpr _ op (some r) =>
    (exprString r).map (fun rs => "(" ++ op ++ rs ++ ")")
  | .InfixExpr _ none _ _ => none
  | .InfixExpr _ (some _) _ none => none
  | .InfixExpr _ (some a) op (some b) => do
    let as_ ← exprString a
    let bs ← exprString b
    return "(" ++ as_ ++ " " ++ op ++ " " ++ bs ++ ")"
  | .CallExpr _ none _ => none
  | .CallExpr _ (some f) none => do
    let fs ← exprString f
    return fs ++ "(" ++ String.intercalate ", " [] ++ ")"
  | .CallExpr _ (some f) (some args) => do
    let argStrs ← exprListStrings args
    let fs ← exprString f
    return fs ++ "(" ++ String.intercalate ", " argStrs ++ ")"

/-- Renders each argument of a call in order; a nil argument pointer
panics in Go (`none` here). -/
def exprListStrings : List (Option Expr) → Option (List String)
  | [] => some []
  | none :: _ => none
  | some e :: rest => do
    let s ← exprString e
    let r ← exprListStrings rest
    return s :: r

end

/-- `ExpressionStmt.String`: delegates to the expression, or yields the
empty string when the expression is nil (this one is nil-checked in Go). -/
def stmtString (s : Stmt) : Option String :=
  match s.expr with
  | some e => exprString e
  | none => some ""

/-- `Program.String`: concatenation of the statement renderings. -/
def stmtsString : List Stmt → Option String
  | [] => some ""
  | s :: rest => do
    let a ← stmtString s
    let b ← stmtsString rest
    return a ++ b

/-- Canonical rendering of a parsed program (`none` models a Go panic on
a nil operand inside some node). -/
def progString (p : Program) : Option String :=
  stmtsString p.stmts

/-! ## Package `parser` -/

/-! The `Precedence` enumeration (`iota + 1`).  `UNARY` is named `PREFIX`
in the source. -/

namespace Prec

def LOWEST : Nat := 1
def ANDOR : Nat := 2
def EQUALS : Nat := 3
def LESSGREATEREQUAL : Nat := 4
def LESSGREATER : Nat := 5
def SUM : Nat := 6
def PRODUCT : Nat := 7
def UNARY : Nat := 8
def CALL : Nat := 9
def INDEX : Nat := 10

end Prec

/-- The `precedences` table. -/
def precedences : TokenType → Option Nat
  | .And => some Prec.ANDOR
  | .Or => some Prec.ANDOR
  | .EqualTo => some Prec.EQUALS
  | .NotEqualTo => some Prec.EQUALS
  | .LessThan => some Prec.LESSGREATER
  | .GreaterThan => some Prec.LESSGREATER
  | .GreaterThanEqualTo => some Prec.LESSGREATEREQUAL
  | .LessThanEqualTo => some Prec.LESSGREATEREQUAL
  | .Plus => some Prec.SUM
  | .Minus => some Prec.SUM
  | .Slash => some Prec.PRODUCT
  | .Star => some Prec.PRODUCT
  | .Modulo => some Prec.PRODUCT
  | .LeftParen => some Prec.CALL
  | .LeftSquareBracket => some Prec.INDEX
  | _ => none

/-- Names of the prefix handlers registered in `parser.New`. -/
inductive PrefixFn where
  | identFn | numberFn | prefixExprFn | groupedFn
deriving DecidableEq, Repr

/-- Names of the infix handlers registered in `parser.New`. -/
inductive InfixFn where
  | infixExprFn | callExprFn
deriving DecidableEq, Repr

/-- The `prefixParseFns` registry: built once in `parser.New`, constant
thereafter, so it is a fixed table here. -/
def prefixParseFns : TokenType → Option PrefixFn
  | .Identifier => some .identFn
  | .Number => some .numberFn
  | .Bang => some .prefixExprFn
  | .Minus => some .prefixExprFn
  | .LeftParen => some .groupedFn
  | _ => none

/-- The `infixParseFns` registry, likewise fixed at construction. -/
def infixParseFns : TokenType → Option InfixFn
  | .Plus => some .infixExprFn
  | .Minus => some .infixExprFn
  | .Slash => some .infixExprFn
  | .Star => some .infixExprFn
  | .Modulo => some .infixExprFn
  | .EqualTo => some .infixExprFn
  | .NotEqualTo => some .infixExprFn
  | .GreaterThanEqualTo => some .infixExprFn
  | .LessThanEqualTo => some .infixExprFn
  | .GreaterThan => some .infixExprFn
  | .LessThan => some .infixExprFn
  | .And => some .infixExprFn
  | .Or => some .infixExprFn
  | .LeftParen => some .callExprFn
  | _ => none

/-- Numeric value of a digit run. -/
def digitsVal (l : List Char) : Nat :=
  l.foldl (fun a c => 10 * a + (c.toNat - 48)) 0

/-- Models `strconv.ParseFloat(s, 64)` on the literal shapes the lexer
can produce (a digit followed by digits and dots): it succeeds exactly
when the string has at most one dot, with the evident decimal value.
Float64 rounding and range overflow are not modelled; no property proved
below consults the numeric value. -/
def parseFloat? (s : String) : Option Rat :=
  let chars := s.data
  if chars ≠ [] ∧ (∀ c ∈ chars, IsNumeric c ∨ c = '.') ∧
      (chars.filter (fun c => c = '.')).length ≤ 1 ∧ (∃ c ∈ chars, IsNumeric c) then
    let intPart := chars.takeWhile (fun c => ¬ c = '.')
    let fracPart := (chars.dropWhile (fun c => ¬ c = '.')).drop 1
    some ((digitsVal intPart : Rat) + (digitsVal fracPart : Rat) / ((10 : Rat) ^ fracPart.length))
  else none

/-- `parser.Parser`: lexer, current and lookahead token, accumulated
diagnostics.  The two handler registries are the fixed tables above. -/
structure Parser where
  lexer : Lexer
  currToken : Token
  peekToken : Token
  errors : List String

namespace Parser

/-- `(*Parser).nextToken`. -/
def nextToken (p : Parser) : Parser :=
  let r := Lexer.NextToken p.lexer
  { p with currToken := p.peekToken, peekToken := r.2, lexer := r.1 }

/-- `parser.New`: zero-valued token fields, then two advances. -/
def New (l : Lexer) : Parser :=
  nextToken (nextToken
    { lexer := l, currToken := goZeroToken, peekToken := goZeroToken, errors := [] })

/-- `(*Parser).currTokenIs`. -/
def currTokenIs (p : Parser) (t : TokenType) : Bool :=
  p.currToken.type = t

/-- `(*Parser).peekTokenIs`. -/
def peekTokenIs (p : Parser) (t : TokenType) : Bool :=
  p.peekToken.type = t

/-- `(*Parser).peekError` (Go formats the message with `%s` on the two
token types). -/
def peekError (p : Parser) (t : TokenType) : Parser :=
  { p with errors := p.errors ++
      ["Honk! expected next token to be " ++ typeString t ++ ", got " ++
        typeString p.peekToken.type ++ " instead"] }

/-- `(*Parser).expectPeek`: advance on a match, otherwise record a
diagnostic; returns the Go boolean too. -/
def expectPeek (p : Parser) (t : TokenType) : Bool × Parser :=
  if peekTokenIs p t then (true, nextToken p) else (false, peekError p t)

/-- `(*Parser).noPrefixParseFnError`. -/
def noPrefixParseFnError (p : Parser) (t : TokenType) : Parser :=
  { p with errors := p.errors ++
      ["Honk! no prefix parse function for " ++ typeString t ++ " found"] }

/-- `(*Parser).peekPrecedence`. -/
def peekPrecedence (p : Parser) : Nat :=
  (precedences p.peekToken.type).getD Prec.LOWEST

/-- `(*Parser).currPrecedence`. -/
def currPrecedence (p : Parser) : Nat :=
  (precedences p.currToken.type).getD Prec.LOWEST

/-- `(*Parser).parseIdentifier` (a prefix handler; consumes nothing). -/
def parseIdentifier (p : Parser) : Option Expr × Parser :=
  (some (.Identifier p.currToken p.currToken.literal), p)

/-- `(*Parser).parseNumberLiteral`: number-literal text that fails the
float parse records a diagnostic (Go quotes the literal with `%q`) and
yields nil. -/
def parseNumberLiteral (p : Parser) : Option Expr × Parser :=
  match parseFloat? p.currToken.literal with
  | some v => (some (.NumberLiteral p.currToken v), p)
  | none =>
    (none, { p with errors := p.errors ++
      ["could not parse \"" ++ p.currToken.literal ++ "\" as integer"] })

mutual

/-- `(*Parser).parseExpression`: find a prefix handler for the current
token (diagnostic and nil when absent), run it, then the climbing loop.
The first `fuel` argument only bounds the recursion depth; `none` means
fuel ran out (a sufficient linear bound is proved below). -/
def parseExpression (fuel : Nat) (precedence : Nat) (p : Parser) :
    Option (Option Expr × Parser) :=
  match fuel with
  | 0 => none
  | fuel + 1 =>
    match prefixParseFns p.currToken.type with
    | none => some (none, noPrefixParseFnError p p.currToken.type)
    | some .identFn =>
      let r := parseIdentifier p
      parseExpressionLoop fuel precedence r.1 r.2
    | some .numberFn =>
      let r := parseNumberLiteral p
      parseExpressionLoop fuel precedence r.1 r.2
    | some .prefixExprFn =>
      match parsePrefixExpr fuel p with
      | none => none
      | some r => parseExpressionLoop fuel precedence r.1 r.2
    | some .groupedFn =>
      match parseGroupedExpr fuel p with
      | none => none
      | some r => parseExpressionLoop fuel precedence r.1 r.2

/-- The `for` loop of `parseExpression`: while the lookahead is not a
semicolon and binds tighter than `precedence`, rebind `left` through the
lookahead's infix handler (stopping if none is registered). -/
def parseExpressionLoop (fuel : Nat) (precedence : Nat) (left : Option Expr) (p : Parser) :
    Option (Option Expr × Parser) :=
  match fuel with
  | 0 => none
  | fuel + 1 =>
    if ¬ p.peekToken.type = TokenType.Semicolon ∧ precedence < peekPrecedence p then
      match infixParseFns p.peekToken.type with
      | none => some (left, p)
      | some fn =>
        let p := nextToken p
        match
          (match fn with
           | .infixExprFn => parseInfixExpr fuel left p
           | .callExprFn => parseCallExpr fuel left p) with
        | none => none
        | some r => parseExpressionLoop fuel precedence r.1 r.2
    else some (left, p)

/-- `(*Parser).parsePrefixExpr`: capture the operator, advance, parse the
operand at unary precedence (`PREFIX`); the node is built even when the
operand comes back nil. -/
def parsePrefixExpr (fuel : Nat) (p : Parser) : Option (Option Expr × Parser) :=
  match fuel with
  | 0 => none
  | fuel + 1 =>
    let tok := p.currToken
    let p := nextToken p
    match parseExpression fuel Prec.UNARY p with
    | none => none
    | some r => some (some (.PrefixExpr tok tok.literal r.1), r.2)

/-- `(*Parser).parseGroupedExpr`: advance past `(`, parse at lowest
precedence, then require `)` via `expectPeek` (nil result if absent). -/
def parseGroupedExpr (fuel : Nat) (p : Parser) : Option (Option Expr × Parser) :=
  match fuel with
  | 0 => none
  | fuel + 1 =>
    let p := nextToken p
    match parseExpression fuel Prec.LOWEST p with
    | none => none
    | some r =>
      let ep := expectPeek r.2 TokenType.RightParen
      if ep.1 then some (r.1, ep.2) else some (none, ep.2)

/-- `(*Parser).parseInfixExpr`: capture operator and left operand, record
the operator's own precedence, advance, parse the right operand at that
captured precedence. -/
def parseInfixExpr (fuel : Nat) (left : Option Expr) (p : Parser) :
    Option (Option Expr × Parser) :=
  match fuel with
  | 0 => none
  | fuel + 1 =>
    let tok := p.currToken
    let precedence := currPrecedence p
    let p := nextToken p
    match parseExpression fuel precedence p with
    | none => none
    | some r => some (some (.InfixExpr tok left tok.literal r.1), r.2)

/-- `(*Parser).parseCallExpr`: callee plus a `)`-terminated list. -/
def parseCallExpr (fuel : Nat) (function : Option Expr) (p : Parser) :
    Option (Option Expr × Parser) :=
  match fuel with
  | 0 => none
  | fuel + 1 =>
    let tok := p.currToken
    match parseExpressionList fuel TokenType.RightParen p with
    | none => none
    | some r => some (some (.CallExpr tok function r.1), r.2)

/-- `(*Parser).parseExpressionList`: empty list when the terminator
immediately follows; otherwise first element then the comma loop. -/
def parseExpressionList (fuel : Nat) (endType : TokenType) (p : Parser) :
    Option (Option (List (Option Expr)) × Parser) :=
  match fuel with
  | 0 => none
  | fuel + 1 =>
    if peekTokenIs p endType then some (some [], nextToken p)
    else
      let p := nextToken p
      match parseExpression fuel Prec.LOWEST p with
      | none => none
      | some r => parseExpressionListLoop fuel endType [r.1] r.2

/-- The comma loop of `parseExpressionList`, then the terminator check
(`expectPeek`); a missing terminator records a diagnostic and yields a
nil list. -/
def parseExpressionListLoop (fuel : Nat) (endType : TokenType)
    (list : List (Option Expr)) (p : Parser) :
    Option (Option (List (Option Expr)) × Parser) :=
  match fuel with
  | 0 => none
  | fuel + 1 =>
    if peekTokenIs p TokenType.Comma then
      let p := nextToken (nextToken p)
      match parseExpression fuel Prec.LOWEST p with
      | none => none
      | some r => parseExpressionListLoop fuel endType (list ++ [r.1]) r.2
    else
      let ep := expectPeek p endType
      if ep.1 then some (some list, ep.2) else some (none, ep.2)

end

/-- `(*Parser).parseExpressionStmt`: parse at lowest precedence, then
swallow one optional trailing semicolon.  The Go function always returns
a non-nil statement pointer. -/
def parseExpressionStmt (fuel : Nat) (p : Parser) : Option (Stmt × Parser) :=
  let tok := p.currToken
  match parseExpression fuel Prec.LOWEST p with
  | none => none
  | some r =>
    let p := if peekTokenIs r.2 TokenType.Semicolon then nextToken r.2 else r.2
    some ({ token := tok, expr := r.1 }, p)

/-- `(*Parser).parseStatement` (expression statements only). -/
def parseStatement (fuel : Nat) (p : Parser) : Option (Stmt × Parser) :=
  parseExpressionStmt fuel p

/-- The loop of `(*Parser).ParseProgram`: one statement per iteration
until the current token is end-of-input, each non-nil result appended
(the Go nil check never fires), then one unconditional advance. -/
def parseProgramLoop (fuel : Nat) (stmts : List Stmt) (p : Parser) :
    Option (Program × Parser) :=
  match fuel with
  | 0 => none
  | fuel + 1 =>
    if currTokenIs p TokenType.EOF then some ({ stmts := stmts }, p)
    else
      match parseStatement fuel p with
      | none => none
      | some r => parseProgramLoop fuel (stmts ++ [r.1]) (nextToken r.2)

/-- `(*Parser).ParseProgram`. -/
def ParseProgram (fuel : Nat) (p : Parser) : Option (Program × Parser) :=
  parseProgramLoop fuel [] p

end Parser

/-- Parse a source text end to end: `parser.New(lexer.New(source))`
followed by `ParseProgram`. -/
def parseSource (fuel : Nat) (source : String) : Option (Program × Parser) :=
  Parser.ParseProgram fuel (Parser.New (Lexer.New source))

/-- End-to-end canonical rendering of a source text: the outer `Option`
is fuel exhaustion, the inner one a rendering panic on a nil operand. -/
def renderSource (fuel : Nat) (source : String) : Option (Option String) :=
  (parseSource fuel source).map (fun r => progString r.1)

/-! ## Lexer state invariant and the `NextToken` specification -/

namespace Lexer

/-- The documented lexer-state invariant: `readPosition` is one past
`position`, and `char` is the source symbol at `position`, or the end
sentinel once `position` has run off the end. -/
def Inv (l : Lexer) : Prop :=
  l.readPosition = l.position + 1 ∧ l.char = charAt l.source l.position

instance (l : Lexer) : Decidable (Inv l) := by
  unfold Inv
  infer_instance

theorem Inv.rp {l : Lexer} (h : Inv l) : l.readPosition = l.position + 1 := h.1

theorem Inv.char_eq {l : Lexer} (h : Inv l) : l.char = charAt l.source l.position := h.2

theorem charAt_of_le {s : String} {i : Nat} (h : s.length ≤ i) :
    charAt s i = Char.ofNat 0 := by
  simp only [charAt]
  rw [if_neg (by omega)]

theorem Inv.char_zero {l : Lexer} (h : Inv l) (hl : l.source.length ≤ l.position) :
    l.char = Char.ofNat 0 := by
  rw [h.char_eq, charAt_of_le hl]

theorem Inv.pos_lt {l : Lexer} (h : Inv l) (hc : ¬ l.char = Char.ofNat 0) :
    l.position < l.source.length := by
  by_contra hge
  exact hc (h.char_zero (by omega))

@[simp] theorem readChar_source (l : Lexer) : (readChar l).source = l.source := rfl

@[simp] theorem readChar_position (l : Lexer) : (readChar l).position = l.readPosition := rfl

@[simp] theorem readChar_readPosition (l : Lexer) :
    (readChar l).readPosition = l.readPosition + 1 := rfl

theorem readChar_inv (l : Lexer) : Inv (readChar l) := by
  constructor
  · rfl
  · show (if l.source.length ≤ l.readPosition then Char.ofNat 0
      else l.source.data.getD l.readPosition (Char.ofNat 0)) = charAt l.source l.readPosition
    simp only [charAt]
    by_cases h : l.source.length ≤ l.readPosition
    · rw [if_pos h, if_neg (by omega)]
    · rw [if_neg h, if_pos (by omega)]

theorem readChar_position_inv {l : Lexer} (h : Inv l) :
    (readChar l).position = l.position + 1 := by
  rw [readChar_position, h.rp]

/-- Behaviour of `scanLoop` from any invariant-satisfying state: the
invariant and the source are preserved, the position does not decrease,
it never passes the end of the source (or stays put past it), the final
symbol refutes the guard, and a true initial guard forces strict
progress. -/
theorem scanLoop_spec_aux (guard : Char → Bool) (h0 : guard (Char.ofNat 0) = false) :
    ∀ n l, scanMeasure l ≤ n → Inv l →
      Inv (scanLoop guard l) ∧ (scanLoop guard l).source = l.source ∧
      l.position ≤ (scanLoop guard l).position ∧
      (scanLoop guard l).position ≤ max l.position l.source.length ∧
      guard (scanLoop guard l).char = false ∧
      (guard l.char = true → l.position < (scanLoop guard l).position) := by
  intro n
  induction n with
  | zero =>
    intro l hn hInv
    have hchz : l.char = Char.ofNat 0 := by
      by_contra hne
      simp only [scanMeasure, if_neg hne] at hn
      omega
    have hguard : guard l.char = false := by rw [hchz]; exact h0
    rw [scanLoop_eq guard h0 l, if_neg (by simp [hguard])]
    refine ⟨hInv, rfl, le_refl _, le_max_left _ _, hguard, ?_⟩
    intro hg
    rw [hg] at hguard
    cases hguard
  | succ n ih =>
    intro l hn hInv
    by_cases hguard : guard l.char = true
    · have hne : ¬ l.char = Char.ofNat 0 := by
        intro h
        rw [h, h0] at hguard
        cases hguard
      have hposlt : l.position < l.source.length := hInv.pos_lt hne
      have hlt : scanMeasure (readChar l) < scanMeasure l := by
        simp only [scanMeasure, readChar]
        exact loopMeasure_lt l.source.length l.readPosition l.char _ hne (fun h => by simp [h])
      rw [scanLoop_eq guard h0 l, if_pos hguard]
      obtain ⟨h1, h2, h3, h4, h5, _⟩ := ih (readChar l) (by omega) (readChar_inv l)
      have hstep : (readChar l).position = l.position + 1 := readChar_position_inv hInv
      refine ⟨h1, by rw [h2]; rfl, by omega, ?_, h5, fun _ => by omega⟩
      rw [readChar_source] at h4
      rw [hstep] at h4
      omega
    · simp only [Bool.not_eq_true] at hguard
      rw [scanLoop_eq guard h0 l, if_neg (by simp [hguard])]
      refine ⟨hInv, rfl, le_refl _, le_max_left _ _, hguard, ?_⟩
      intro hg
      rw [hg] at hguard
      cases hguard

theorem scanLoop_spec (guard : Char → Bool) (h0 : guard (Char.ofNat 0) = false)
    (l : Lexer) (hInv : Inv l) :
    Inv (scanLoop guard l) ∧ (scanLoop guard l).source = l.source ∧
      l.position ≤ (scanLoop guard l).position ∧
      (scanLoop guard l).position ≤ max l.position l.source.length ∧
      guard (scanLoop guard l).char = false ∧
      (guard l.char = true → l.position < (scanLoop guard l).position) :=
  scanLoop_spec_aux guard h0 (scanMeasure l) l (le_refl _) hInv

/-- Behaviour of the string-scanning loop from a state sitting on the
opening quote: invariant and source preserved, at least one symbol
consumed, never past the end of the source, and the final symbol is a
quote or the end sentinel. -/
theorem readStringLoop_spec_aux :
    ∀ n l, l.source.length + 1 - l.readPosition ≤ n → Inv l →
      l.position < l.source.length →
      Inv (readStringLoop l) ∧ (readStringLoop l).source = l.source ∧
      l.position + 1 ≤ (readStringLoop l).position ∧
      (readStringLoop l).position ≤ l.source.length ∧
      ((readStringLoop l).char = '"' ∨ (readStringLoop l).char = Char.ofNat 0) := by
  intro n
  induction n with
  | zero =>
    intro l hn hInv hpos
    rw [hInv.rp] at hn
    omega
  | succ n ih =>
    intro l hn hInv hpos
    rw [readStringLoop_eq l]
    simp only
    have hInv1 : Inv (readChar l) := readChar_inv l
    have hstep : (readChar l).position = l.position + 1 := readChar_position_inv hInv
    by_cases hstop : (readChar l).char = '"' ∨ (readChar l).char = Char.ofNat 0
    · rw [if_pos hstop]
      exact ⟨hInv1, rfl, by omega, by omega, hstop⟩
    · rw [if_neg hstop]
      push_neg at hstop
      have hposlt : (readChar l).position < l.source.length := by
        have := hInv1.pos_lt hstop.2
        rw [readChar_source] at this
        exact this
      obtain ⟨h1, h2, h3, h4, h5⟩ := ih (readChar l)
        (by
          simp only [readChar_source, readChar_readPosition, hInv.rp]
          rw [hInv.rp] at hn
          omega) hInv1 hposlt
      rw [readChar_source] at h2 h4
      exact ⟨h1, h2, by omega, h4, h5⟩

theorem readStringLoop_spec (l : Lexer) (hInv : Inv l) (hpos : l.position < l.source.length) :
    Inv (readStringLoop l) ∧ (readStringLoop l).source = l.source ∧
      l.position + 1 ≤ (readStringLoop l).position ∧
      (readStringLoop l).position ≤ l.source.length ∧
      ((readStringLoop l).char = '"' ∨ (readStringLoop l).char = Char.ofNat 0) :=
  readStringLoop_spec_aux (l.source.length + 1 - l.readPosition) l (le_refl _) hInv hpos

@[simp] theorem readIdentifer_fst (l : Lexer) : (readIdentifer l).1 = readIdentLoop l := rfl

@[simp] theorem readNumber_fst (l : Lexer) : (readNumber l).1 = readNumberLoop l := rfl

@[simp] theorem readString_fst (l : Lexer) : (readString l).1 = readStringLoop l := rfl

theorem skipWhitespace_spec (l : Lexer) (h : Inv l) :
    Inv (skipWhitespace l) ∧ (skipWhitespace l).source = l.source ∧
      l.position ≤ (skipWhitespace l).position ∧
      (skipWhitespace l).position ≤ max l.position l.source.length :=
  let s := scanLoop_spec isWhitespaceChar (by decide) l h
  ⟨s.1, s.2.1, s.2.2.1, s.2.2.2.1⟩

theorem peekChar_lt {m : Lexer} (hpeek : ¬ peekChar m = Char.ofNat 0) :
    m.readPosition < m.source.length := by
  by_contra hge
  exact hpeek (by simp only [peekChar]; rw [if_pos (by omega)])

theorem LookupIdent_ne_eof (s : String) : ¬ LookupIdent s = TokenType.EOF := by
  unfold LookupIdent
  split_ifs <;> decide

/-- The full specification of one `NextToken` step from an
invariant-satisfying state `l0`: the invariant and source are preserved,
the position strictly advances, it stays within `len + 1` whenever the
returned token is not end-of-input, it never advances past
`max (position + 1) (len + 1)`, and an exhausted state yields exactly the
end-of-input token. -/
def NTSpec (l0 : Lexer) (r : Lexer × Token) : Prop :=
  Inv r.1 ∧ r.1.source = l0.source ∧ l0.position < r.1.position ∧
  (¬ r.2.type = TokenType.EOF → r.1.position ≤ l0.source.length + 1) ∧
  r.1.position ≤ max (l0.position + 1) (l0.source.length + 1) ∧
  (l0.source.length ≤ l0.position → r.2 = eofToken)

theorem branch_single (l0 m : Lexer) (tok : Token) (hInv : Inv m)
    (hsrc : m.source = l0.source) (hlow : l0.position ≤ m.position)
    (hup : m.position ≤ max l0.position l0.source.length)
    (hne : ¬ m.char = Char.ofNat 0) (htok : ¬ tok.type = TokenType.EOF) :
    NTSpec l0 (readChar m, tok) := by
  dsimp only [NTSpec]
  have hlen : m.source.length = l0.source.length := by rw [hsrc]
  have hposlt : m.position < m.source.length := hInv.pos_lt hne
  have hpos : (readChar m).position = m.position + 1 := readChar_position_inv hInv
  refine ⟨readChar_inv m, by rw [readChar_source, hsrc], by omega, fun _ => by omega,
    by omega, fun hle => ?_⟩
  exact absurd (hInv.char_zero (by omega)) hne

theorem branch_double (l0 m : Lexer) (tok : Token) (hInv : Inv m)
    (hsrc : m.source = l0.source) (hlow : l0.position ≤ m.position)
    (hup : m.position ≤ max l0.position l0.source.length)
    (hne : ¬ m.char = Char.ofNat 0) (hpeek : ¬ peekChar m = Char.ofNat 0)
    (htok : ¬ tok.type = TokenType.EOF) :
    NTSpec l0 (readChar (readChar m), tok) := by
  dsimp only [NTSpec]
  have hlen : m.source.length = l0.source.length := by rw [hsrc]
  have hrpt : m.readPosition < m.source.length := peekChar_lt hpeek
  have hpos : (readChar (readChar m)).position = m.position + 2 := by
    rw [readChar_position, readChar_readPosition, hInv.rp]
  refine ⟨readChar_inv _, by rw [readChar_source, readChar_source, hsrc], ?_, fun _ => ?_,
    ?_, fun hle => ?_⟩
  · omega
  · rw [hpos]
    rw [hInv.rp] at hrpt
    omega
  · rw [hpos]
    rw [hInv.rp] at hrpt
    omega
  · exact absurd (hInv.char_zero (by omega)) hne

theorem branch_scan (guard : Char → Bool) (h0 : guard (Char.ofNat 0) = false)
    (l0 m : Lexer) (tok : Token) (hInv : Inv m)
    (hsrc : m.source = l0.source) (hlow : l0.position ≤ m.position)
    (hup : m.position ≤ max l0.position l0.source.length)
    (hguard : guard m.char = true) (htok : ¬ tok.type = TokenType.EOF) :
    NTSpec l0 (scanLoop guard m, tok) := by
  dsimp only [NTSpec]
  have hlen : m.source.length = l0.source.length := by rw [hsrc]
  obtain ⟨s1, s2, s3, s4, s5, s6⟩ := scanLoop_spec guard h0 m hInv
  have hne : ¬ m.char = Char.ofNat 0 := by
    intro hcz
    rw [hcz, h0] at hguard
    cases hguard
  have hposlt : m.position < m.source.length := hInv.pos_lt hne
  have hstrict := s6 hguard
  refine ⟨s1, by rw [s2, hsrc], by omega, fun _ => by omega, by omega, fun hle => ?_⟩
  exact absurd (hInv.char_zero (by omega)) hne

theorem branch_string (l0 m : Lexer) (tok : Token) (hInv : Inv m)
    (hsrc : m.source = l0.source) (hlow : l0.position ≤ m.position)
    (hup : m.position ≤ max l0.position l0.source.length)
    (hq : m.char = '"') (htok : ¬ tok.type = TokenType.EOF) :
    NTSpec l0 (readChar (readStringLoop m), tok) := by
  dsimp only [NTSpec]
  have hlen : m.source.length = l0.source.length := by rw [hsrc]
  have hne : ¬ m.char = Char.ofNat 0 := by rw [hq]; decide
  have hposlt : m.position < m.source.length := hInv.pos_lt hne
  obtain ⟨t1, t2, t3, t4, t5⟩ := readStringLoop_spec m hInv hposlt
  have hpos : (readChar (readStringLoop m)).position = (readStringLoop m).position + 1 :=
    readChar_position_inv t1
  refine ⟨readChar_inv _, by rw [readChar_source, t2, hsrc], by omega, fun _ => by omega,
    by omega, fun hle => ?_⟩
  exact absurd (hInv.char_zero (by omega)) hne

theorem branch_eof (l0 m : Lexer) (hInv : Inv m)
    (hsrc : m.source = l0.source) (hlow : l0.position ≤ m.position)
    (hup : m.position ≤ max l0.position l0.source.length) :
    NTSpec l0 (readChar m, eofToken) := by
  dsimp only [NTSpec]
  have hlen : m.source.length = l0.source.length := by rw [hsrc]
  have hpos : (readChar m).position = m.position + 1 := readChar_position_inv hInv
  exact ⟨readChar_inv m, by rw [readChar_source, hsrc], by omega,
    fun hno => absurd rfl hno, by omega, fun _ => rfl⟩

set_option maxHeartbeats 1000000 in
/-- The master specification of `NextToken` (see `NTSpec`). -/
theorem NextToken_spec (l : Lexer) (h : Inv l) : NTSpec l (NextToken l) := by
  obtain ⟨hmInv, hmsrc, hmlow, hmup⟩ := skipWhitespace_spec l h
  show NTSpec l (switchToken (skipWhitespace l))
  set m := skipWhitespace l with hm
  unfold switchToken
  by_cases hc1 : m.char = '('
  · rw [if_pos hc1]
    exact branch_single l m _ hmInv hmsrc hmlow hmup (by rw [hc1]; decide)
      (by show ¬ TokenType.LeftParen = TokenType.EOF; decide)
  rw [if_neg hc1]
  by_cases hc2 : m.char = ')'
  · rw [if_pos hc2]
    exact branch_single l m _ hmInv hmsrc hmlow hmup (by rw [hc2]; decide)
      (by show ¬ TokenType.RightParen = TokenType.EOF; decide)
  rw [if_neg hc2]
  by_cases hc3 : m.char = '\x7b'
  · rw [if_pos hc3]
    exact branch_single l m _ hmInv hmsrc hmlow hmup (by rw [hc3]; decide)
      (by show ¬ TokenType.LeftCurlyBracket = TokenType.EOF; decide)
  rw [if_neg hc3]
  by_cases hc4 : m.char = '\x7d'
  · rw [if_pos hc4]
    exact branch_single l m _ hmInv hmsrc hmlow hmup (by rw [hc4]; decide)
      (by show ¬ TokenType.RightCurlyBracket = TokenType.EOF; decide)
  rw [if_neg hc4]
  by_cases hc5 : m.char = '['
  · rw [if_pos hc5]
    exact branch_single l m _ hmInv hmsrc hmlow hmup (by rw [hc5]; decide)
      (by show ¬ TokenType.LeftSquareBracket = TokenType.EOF; decide)
  rw [if_neg hc5]
  by_cases hc6 : m.char = ']'
  · rw [if_pos hc6]
    exact branch_single l m _ hmInv hmsrc hmlow hmup (by rw [hc6]; decide)
      (by show ¬ TokenType.RightSquareBracket = TokenType.EOF; decide)
  rw [if_neg hc6]
  by_cases hc7 : m.char = ';'
  · rw [if_pos hc7]
    exact branch_single l m _ hmInv hmsrc hmlow hmup (by rw [hc7]; decide)
      (by show ¬ TokenType.Semicolon = TokenType.EOF; decide)
  rw [if_neg hc7]
  by_cases hc8 : m.char = ','
  · rw [if_pos hc8]
    exact branch_single l m _ hmInv hmsrc hmlow hmup (by rw [hc8]; decide)
      (by show ¬ TokenType.Comma = TokenType.EOF; decide)
  rw [if_neg hc8]
  by_cases hc9 : m.char = ':'
  · rw [if_pos hc9]
    exact branch_single l m _ hmInv hmsrc hmlow hmup (by rw [hc9]; decide)
      (by show ¬ TokenType.Colon = TokenType.EOF; decide)
  rw [if_neg hc9]
  by_cases hc10 : m.char = '.'
  · rw [if_pos hc10]
    exact branch_single l m _ hmInv hmsrc hmlow hmup (by rw [hc10]; decide)
      (by show ¬ TokenType.Dot = TokenType.EOF; decide)
  rw [if_neg hc10]
  by_cases hc11 : m.char = '"'
  · rw [if_pos hc11]
    exact branch_string l m _ hmInv hmsrc hmlow hmup hc11 (by show ¬ TokenType.String = TokenType.EOF; decide)
  rw [if_neg hc11]
  by_cases hc12 : m.char = '='
  · rw [if_pos hc12]
    by_cases hp12 : peekChar m = '='
    · rw [if_pos hp12]
      exact branch_double l m _ hmInv hmsrc hmlow hmup (by rw [hc12]; decide)
        (by rw [hp12]; decide) (by show ¬ TokenType.EqualTo = TokenType.EOF; decide)
    · rw [if_neg hp12]
      exact branch_single l m _ hmInv hmsrc hmlow hmup (by rw [hc12]; decide)
        (by show ¬ TokenType.Assign = TokenType.EOF; decide)
  rw [if_neg hc12]
  by_cases hc13 : m.char = '+'
  · rw [if_pos hc13]
    exact branch_single l m _ hmInv hmsrc hmlow hmup (by rw [hc13]; decide)
      (by show ¬ TokenType.Plus = TokenType.EOF; decide)
  rw [if_neg hc13]
  by_cases hc14 : m.char = '-'
  · rw [if_pos hc14]
    exact branch_single l m _ hmInv hmsrc hmlow hmup (by rw [hc14]; decide)
      (by show ¬ TokenType.Minus = TokenType.EOF; decide)
  rw [if_neg hc14]
  by_cases hc15 : m.char = '*'
  · rw [if_pos hc15]
    exact branch_single l m _ hmInv hmsrc hmlow hmup (by rw [hc15]; decide)
      (by show ¬ TokenType.Star = TokenType.EOF; decide)
  rw [if_neg hc15]
  by_cases hc16 : m.char = '/'
  · rw [if_pos hc16]
    exact branch_single l m _ hmInv hmsrc hmlow hmup (by rw [hc16]; decide)
      (by show ¬ TokenType.Slash = TokenType.EOF; decide)
  rw [if_neg hc16]
  by_cases hc17 : m.char = '%'
  · rw [if_pos hc17]
    exact branch_single l m _ hmInv hmsrc hmlow hmup (by rw [hc17]; decide)
      (by show ¬ TokenType.Modulo = TokenType.EOF; decide)
  rw [if_neg hc17]
  by_cases hc18 : m.char = '>'
  · rw [if_pos hc18]
    by_cases hp18 : peekChar m = '='
    · rw [if_pos hp18]
      exact branch_double l m _ hmInv hmsrc hmlow hmup (by rw [hc18]; decide)
        (by rw [hp18]; decide) (by show ¬ TokenType.GreaterThanEqualTo = TokenType.EOF; decide)
    · rw [if_neg hp18]
      exact branch_single l m _ hmInv hmsrc hmlow hmup (by rw [hc18]; decide)
        (by show ¬ TokenType.GreaterThan = TokenType.EOF; decide)
  rw [if_neg hc18]
  by_cases hc19 : m.char = '<'
  · rw [if_pos hc19]
    by_cases hp19 : peekChar m = '='
    · rw [if_pos hp19]
      exact branch_double l m _ hmInv hmsrc hmlow hmup (by rw [hc19]; decide)
        (by rw [hp19]; decide) (by show ¬ TokenType.LessThanEqualTo = TokenType.EOF; decide)
    · rw [if_neg hp19]
      exact branch_single l m _ hmInv hmsrc hmlow hmup (by rw [hc19]; decide)
        (by show ¬ TokenType.LessThan = TokenType.EOF; decide)
  rw [if_neg hc19]
  by_cases hc20 : m.char = '!'
  · rw [if_pos hc20]
    by_cases hp20 : peekChar m = '='
    · rw [if_pos hp20]
      exact branch_double l m _ hmInv hmsrc hmlow hmup (by rw [hc20]; decide)
        (by rw [hp20]; decide) (by show ¬ TokenType.NotEqualTo = TokenType.EOF; decide)
    · rw [if_neg hp20]
      exact branch_single l m _ hmInv hmsrc hmlow hmup (by rw [hc20]; decide)
        (by show ¬ TokenType.Bang = TokenType.EOF; decide)
  rw [if_neg hc20]
  by_cases hc21 : m.char = '&'
  · rw [if_pos hc21]
    by_cases hp21 : peekChar m = '&'
    · rw [if_pos hp21]
      exact branch_double l m _ hmInv hmsrc hmlow hmup (by rw [hc21]; decide)
        (by rw [hp21]; decide) (by show ¬ TokenType.And = TokenType.EOF; decide)
    · rw [if_neg hp21]
      exact branch_single l m _ hmInv hmsrc hmlow hmup (by rw [hc21]; decide)
        (by show ¬ TokenType.Illegal = TokenType.EOF; decide)
  rw [if_neg hc21]
  by_cases hc22 : m.char = '|'
  · rw [if_pos hc22]
    by_cases hp22 : peekChar m = '|'
    · rw [if_pos hp22]
      exact branch_double l m _ hmInv hmsrc hmlow hmup (by rw [hc22]; decide)
        (by rw [hp22]; decide) (by show ¬ TokenType.Or = TokenType.EOF; decide)
    · rw [if_neg hp22]
      exact branch_single l m _ hmInv hmsrc hmlow hmup (by rw [hc22]; decide)
        (by show ¬ TokenType.Illegal = TokenType.EOF; decide)
  rw [if_neg hc22]
  by_cases hc23 : m.char = Char.ofNat 0
  · rw [if_pos hc23]
    exact branch_eof l m hmInv hmsrc hmlow hmup
  rw [if_neg hc23]
  by_cases hc24 : IsAlpha m.char = true
  · rw [if_pos hc24]
    exact branch_scan IsAlpha (by decide) l m _ hmInv hmsrc hmlow hmup hc24 (LookupIdent_ne_eof _)
  rw [if_neg hc24]
  by_cases hc25 : IsNumeric m.char = true
  · rw [if_pos hc25]
    exact branch_scan isNumberChar (by decide) l m _ hmInv hmsrc hmlow hmup
      (by simp [isNumberChar, hc25]) (by show ¬ TokenType.Number = TokenType.EOF; decide)
  rw [if_neg hc25]
  exact branch_single l m _ hmInv hmsrc hmlow hmup hc23 (by show ¬ TokenType.Illegal = TokenType.EOF; decide)

/-- The invariant holds right after construction. -/
theorem New_inv (source : String) : Inv (New source) :=
  readChar_inv _

@[simp] theorem New_position (source : String) : (New source).position = 0 := rfl

@[simp] theorem New_source (source : String) : (New source).source = source := rfl

/-- The invariant is preserved by every `NextToken` call. -/
theorem NextToken_inv (l : Lexer) (h : Inv l) : Inv (NextToken l).1 :=
  (NextToken_spec l h).1

/-- Every `NextToken` call strictly advances the scan position. -/
theorem NextToken_pos_lt (l : Lexer) (h : Inv l) : l.position < (NextToken l).1.position :=
  (NextToken_spec l h).2.2.1

theorem NextToken_source (l : Lexer) (h : Inv l) : (NextToken l).1.source = l.source :=
  (NextToken_spec l h).2.1

/-- An exhausted lexer state yields exactly the end-of-input token. -/
theorem NextToken_eof (l : Lexer) (h : Inv l) (hl : l.source.length ≤ l.position) :
    (NextToken l).2 = eofToken :=
  (NextToken_spec l h).2.2.2.2.2 hl

theorem advanceN_facts (l : Lexer) (h : Inv l) :
    ∀ n, Inv (advanceN l n) ∧ (advanceN l n).source = l.source ∧
      l.position + n ≤ (advanceN l n).position := by
  intro n
  induction n generalizing l with
  | zero => exact ⟨h, rfl, by show l.position + 0 ≤ l.position; omega⟩
  | succ n ih =>
    obtain ⟨s1, s2, s3, _, _, _⟩ := NextToken_spec l h
    obtain ⟨i1, i2, i3⟩ := ih (NextToken l).1 s1
    refine ⟨i1, ?_, ?_⟩
    · show (advanceN (NextToken l).1 n).source = l.source
      rw [i2, s2]
    · show l.position + (n + 1) ≤ (advanceN (NextToken l).1 n).position
      omega

/-- Flattened loop equation for `readStringLoop`. -/
theorem readStringLoop_step (l : Lexer) :
    readStringLoop l = if (readChar l).char = '"' ∨ (readChar l).char = Char.ofNat 0
      then readChar l else readStringLoop (readChar l) :=
  readStringLoop_eq l

/-- Exact run of the string loop: it stops at the first index after the
opening position whose symbol is a quote or the end sentinel. -/
theorem readStringLoop_run :
    ∀ n (l : Lexer) (j : Nat), j - l.position ≤ n → Inv l → l.position < j →
      (charAt l.source j = '"' ∨ charAt l.source j = Char.ofNat 0) →
      (∀ i, l.position < i → i < j →
        ¬ (charAt l.source i = '"' ∨ charAt l.source i = Char.ofNat 0)) →
      (readStringLoop l).source = l.source ∧ (readStringLoop l).position = j := by
  intro n
  induction n with
  | zero =>
    intro l j hn hInv hj hstop hgood
    exfalso
    omega
  | succ n ih =>
    intro l j hn hInv hj hstop hgood
    rw [readStringLoop_step l]
    have hInv' : Inv (readChar l) := readChar_inv l
    have hpos' : (readChar l).position = l.position + 1 := readChar_position_inv hInv
    have hchar' : (readChar l).char = charAt l.source (l.position + 1) := by
      have := hInv'.char_eq
      rw [readChar_source, hpos'] at this
      exact this
    by_cases hEnd : l.position + 1 = j
    · have hs : (readChar l).char = '"' ∨ (readChar l).char = Char.ofNat 0 := by
        rw [hchar', hEnd]
        exact hstop
      rw [if_pos hs]
      exact ⟨rfl, by rw [hpos', hEnd]⟩
    · have hlt : l.position + 1 < j := by omega
      have hnstop : ¬ ((readChar l).char = '"' ∨ (readChar l).char = Char.ofNat 0) := by
        rw [hchar']
        exact hgood (l.position + 1) (by omega) hlt
      rw [if_neg hnstop]
      obtain ⟨ih1, ih2⟩ := ih (readChar l) j (by rw [hpos']; omega) hInv'
        (by rw [hpos']; omega)
        (by rw [readChar_source]; exact hstop)
        (by
          rw [readChar_source, hpos']
          intro i h1 h2
          exact hgood i (by omega) h2)
      rw [readChar_source] at ih1
      exact ⟨ih1, ih2⟩

/-- The `"` case of the `NextToken` dispatch. -/
theorem switchToken_quote (m : Lexer) (hq : m.char = '"') :
    switchToken m =
      (readChar (readString m).1, { literal := (readString m).2, type := TokenType.String }) := by
  unfold switchToken
  rw [if_neg (by rw [hq]; decide), if_neg (by rw [hq]; decide), if_neg (by rw [hq]; decide),
    if_neg (by rw [hq]; decide), if_neg (by rw [hq]; decide), if_neg (by rw [hq]; decide),
    if_neg (by rw [hq]; decide), if_neg (by rw [hq]; decide), if_neg (by rw [hq]; decide),
    if_neg (by rw [hq]; decide), if_pos hq]

/-- `NextToken` on a source that opens a string literal at its first
symbol: the token is a `String` token whose literal is delimited by the
stop position of the string loop. -/
theorem nextToken_opening_quote (s : String) (hs : s.data.head? = some '"') (j : Nat)
    (hj : 0 < j)
    (hstop : charAt s j = '"' ∨ charAt s j = Char.ofNat 0)
    (hgood : ∀ i, 0 < i → i < j → ¬ (charAt s i = '"' ∨ charAt s i = Char.ofNat 0)) :
    (NextToken (New s)).2 = Token.mk (substrRange s 1 j) TokenType.String := by
  have hlen : 0 < s.length := by
    cases hd : s.data with
    | nil => rw [hd] at hs; cases hs
    | cons a t =>
      show 0 < s.data.length
      rw [hd]
      simp
  have hchar0 : (New s).char = '"' := by
    show (if s.length ≤ 0 then Char.ofNat 0 else s.data.getD 0 (Char.ofNat 0)) = '"'
    rw [if_neg (by omega)]
    cases hd : s.data with
    | nil => rw [hd] at hs; cases hs
    | cons a t =>
      rw [hd] at hs
      simp only [List.head?_cons, Option.some.injEq] at hs
      simp [hs]
  have hskip : skipWhitespace (New s) = New s := by
    rw [skipWhitespace_eq, if_neg (by rw [hchar0]; decide)]
  obtain ⟨hrun1, hrun2⟩ := readStringLoop_run (j - (New s).position) (New s) j (le_refl _)
    (New_inv s) (by rw [New_position]; omega)
    (by rw [New_source]; exact hstop)
    (by rw [New_source, New_position]; exact hgood)
  have hlit : (readString (New s)).2 = substrRange s 1 j := by
    show substrRange (New s).source ((New s).position + 1) (readStringLoop (New s)).position = _
    rw [hrun2, New_source, New_position]
  show (switchToken (skipWhitespace (New s))).2 = _
  rw [hskip, switchToken_quote (New s) hchar0]
  dsimp only
  rw [hlit]

end Lexer

/-! ## Parser state invariant and fuel sufficiency -/

namespace Parser

/-- The parser-state measure driving the fuel bounds: how far the
lexer's scan position still is from the saturation point `len + 3`. -/
def mu (p : Parser) : Nat :=
  p.lexer.source.length + 3 - p.lexer.position

/-- The parser-state invariant: the lexer invariant holds, and the two
token buffers bound the scan position (a non-end-of-input lookahead was
produced at most one symbol past the end; the current token one pull
earlier still). -/
def Pinv (p : Parser) : Prop :=
  Lexer.Inv p.lexer ∧
  (¬ p.peekToken.type = TokenType.EOF →
    p.lexer.position ≤ p.lexer.source.length + 1) ∧
  (¬ p.currToken.type = TokenType.EOF →
    p.lexer.position ≤ p.lexer.source.length + 2)

instance (p : Parser) : Decidable (Pinv p) := by
  unfold Pinv
  infer_instance

@[simp] theorem nextToken_lexer (p : Parser) :
    (nextToken p).lexer = (Lexer.NextToken p.lexer).1 := rfl

@[simp] theorem nextToken_curr (p : Parser) :
    (nextToken p).currToken = p.peekToken := rfl

@[simp] theorem nextToken_peek (p : Parser) :
    (nextToken p).peekToken = (Lexer.NextToken p.lexer).2 := rfl

@[simp] theorem nextToken_errors (p : Parser) :
    (nextToken p).errors = p.errors := rfl

/-- `Pinv` only concerns the lexer and the two token buffers. -/
theorem Pinv_of_eq {p q : Parser} (hl : q.lexer = p.lexer)
    (hc : q.currToken = p.currToken) (hp : q.peekToken = p.peekToken)
    (h : Pinv p) : Pinv q := by
  unfold Pinv at h ⊢
  rw [hl, hc, hp]
  exact h

/-- One parser advance preserves the invariant, keeps the source, and
strictly advances the lexer position. -/
theorem nextToken_spec (p : Parser) (h : Pinv p) :
    Pinv (nextToken p) ∧ (nextToken p).lexer.source = p.lexer.source ∧
      p.lexer.position < (nextToken p).lexer.position := by
  obtain ⟨hInv, hpeek, _⟩ := h
  obtain ⟨n1, n2, n3, n4, n5, _⟩ := Lexer.NextToken_spec p.lexer hInv
  refine ⟨⟨n1, ?_, ?_⟩, n2, n3⟩
  · intro hne
    rw [nextToken_lexer, n2]
    exact n4 hne
  · intro hne
    rw [nextToken_lexer, n2]
    have := hpeek hne
    omega

theorem mu_le_of {p q : Parser} (hsrc : q.lexer.source = p.lexer.source)
    (hpos : p.lexer.position ≤ q.lexer.position) : mu q ≤ mu p := by
  unfold mu
  rw [hsrc]
  omega

theorem nextToken_mu (p : Parser) (h : Pinv p) : mu (nextToken p) ≤ mu p - 1 := by
  obtain ⟨_, hsrc, hpos⟩ := nextToken_spec p h
  unfold mu
  rw [hsrc]
  omega

theorem mu_ge_two (p : Parser) (h : Pinv p) (hpk : ¬ p.peekToken.type = TokenType.EOF) :
    2 ≤ mu p := by
  have := h.2.1 hpk
  unfold mu
  omega

theorem mu_ge_one (p : Parser) (h : Pinv p) (hcu : ¬ p.currToken.type = TokenType.EOF) :
    1 ≤ mu p := by
  have := h.2.2 hcu
  unfold mu
  omega

theorem prefix_some_ne_eof {t : TokenType} {f : PrefixFn}
    (h : prefixParseFns t = some f) : ¬ t = TokenType.EOF := by
  cases t <;> simp_all [prefixParseFns]

theorem infix_some_ne_eof {t : TokenType} {f : InfixFn}
    (h : infixParseFns t = some f) : ¬ t = TokenType.EOF := by
  cases t <;> simp_all [infixParseFns]

@[simp] theorem parseIdentifier_snd (p : Parser) : (parseIdentifier p).2 = p := rfl

theorem parseNumberLiteral_state (p : Parser) :
    (parseNumberLiteral p).2.lexer = p.lexer ∧
      (parseNumberLiteral p).2.currToken = p.currToken ∧
      (parseNumberLiteral p).2.peekToken = p.peekToken := by
  unfold parseNumberLiteral
  cases parseFloat? p.currToken.literal <;> exact ⟨rfl, rfl, rfl⟩

theorem expectPeek_spec (p : Parser) (t : TokenType) (h : Pinv p) :
    Pinv (expectPeek p t).2 ∧ (expectPeek p t).2.lexer.source = p.lexer.source ∧
      p.lexer.position ≤ (expectPeek p t).2.lexer.position := by
  unfold expectPeek
  by_cases hp : peekTokenIs p t = true
  · rw [if_pos hp]
    obtain ⟨s1, s2, s3⟩ := nextToken_spec p h
    exact ⟨s1, s2, le_of_lt s3⟩
  · rw [if_neg hp]
    exact ⟨Pinv_of_eq rfl rfl rfl h, rfl, le_refl _⟩

/-- Success plus state facts for one fueled parsing step from state `p`:
the step returns a value, and its final state satisfies the invariant,
keeps the source and does not retreat. -/
def StepOk {α : Type} (p : Parser) (res : Option (α × Parser)) : Prop :=
  ∃ r, res = some r ∧ Pinv r.2 ∧ r.2.lexer.source = p.lexer.source ∧
    p.lexer.position ≤ r.2.lexer.position

theorem StepOk.mono {α : Type} {p q : Parser} {res : Option (α × Parser)}
    (h : StepOk q res) (hsrc : q.lexer.source = p.lexer.source)
    (hpos : p.lexer.position ≤ q.lexer.position) : StepOk p res := by
  obtain ⟨r, h1, h2, h3, h4⟩ := h
  exact ⟨r, h1, h2, by rw [h3, hsrc], by omega⟩


set_option maxHeartbeats 1000000 in
/-- Fuel sufficiency for the whole mutually recursive parser: from any
invariant-satisfying state, every parsing function returns a value (no
fuel exhaustion) once the fuel dominates a bound linear in the remaining
scan distance, and its final state satisfies the invariant again. -/
theorem fuel_sufficient : ∀ fuel : Nat,
    (∀ precedence p, Pinv p → 6 * mu p + 6 ≤ fuel →
      StepOk p (parseExpression fuel precedence p)) ∧
    (∀ precedence left p, Pinv p → 6 * mu p + 5 ≤ fuel →
      StepOk p (parseExpressionLoop fuel precedence left p)) ∧
    (∀ p, Pinv p → ¬ p.currToken.type = TokenType.EOF → 6 * mu p + 5 ≤ fuel →
      StepOk p (parsePrefixExpr fuel p)) ∧
    (∀ p, Pinv p → ¬ p.currToken.type = TokenType.EOF → 6 * mu p + 5 ≤ fuel →
      StepOk p (parseGroupedExpr fuel p)) ∧
    (∀ left p, Pinv p → ¬ p.currToken.type = TokenType.EOF → 6 * mu p + 8 ≤ fuel →
      StepOk p (parseInfixExpr fuel left p)) ∧
    (∀ function p, Pinv p → ¬ p.currToken.type = TokenType.EOF → 6 * mu p + 8 ≤ fuel →
      StepOk p (parseCallExpr fuel function p)) ∧
    (∀ endType p, Pinv p → ¬ p.currToken.type = TokenType.EOF → 6 * mu p + 7 ≤ fuel →
      StepOk p (parseExpressionList fuel endType p)) ∧
    (∀ endType list p, Pinv p → 6 * mu p + 5 ≤ fuel →
      StepOk p (parseExpressionListLoop fuel endType list p)) ∧
    (∀ stmts p, Pinv p → 6 * mu p + 8 ≤ fuel →
      StepOk p (parseProgramLoop fuel stmts p)) := by
  intro fuel
  induction fuel with
  | zero =>
    refine ⟨?_, ?_, ?_, ?_, ?_, ?_, ?_, ?_, ?_⟩ <;> intros <;> exfalso <;> omega
  | succ f ih =>
    obtain ⟨ihPe, ihLoop, ihPre, ihGrp, ihInf, ihCall, ihList, ihLL, ihProg⟩ := ih
    refine ⟨?_, ?_, ?_, ?_, ?_, ?_, ?_, ?_, ?_⟩
    · -- parseExpression
      intro precedence p hP hf
      simp only [parseExpression]
      split
      · exact ⟨(none, noPrefixParseFnError p p.currToken.type), rfl,
          Pinv_of_eq rfl rfl rfl hP, rfl, le_refl _⟩
      · simp only [parseIdentifier_snd]
        exact ihLoop precedence _ p hP (by omega)
      · obtain ⟨hql, hqc, hqp⟩ := parseNumberLiteral_state p
        have hq : Pinv (parseNumberLiteral p).2 := Pinv_of_eq hql hqc hqp hP
        have hmu_eq : mu (parseNumberLiteral p).2 = mu p := by unfold mu; rw [hql]
        refine ((ihLoop precedence (parseNumberLiteral p).1 (parseNumberLiteral p).2 hq
          (by omega)).mono ?_ ?_)
        · rw [hql]
        · simp [hql]
      · rename_i hpf
        have hcu := prefix_some_ne_eof hpf
        obtain ⟨r, hr, hrP, hrsrc, hrpos⟩ := ihPre p hP hcu (by omega)
        rw [hr]
        have hrmu : mu r.2 ≤ mu p := mu_le_of hrsrc hrpos
        exact (ihLoop precedence r.1 r.2 hrP (by omega)).mono hrsrc hrpos
      · rename_i hpf
        have hcu := prefix_some_ne_eof hpf
        obtain ⟨r, hr, hrP, hrsrc, hrpos⟩ := ihGrp p hP hcu (by omega)
        rw [hr]
        have hrmu : mu r.2 ≤ mu p := mu_le_of hrsrc hrpos
        exact (ihLoop precedence r.1 r.2 hrP (by omega)).mono hrsrc hrpos
    · -- parseExpressionLoop
      intro precedence left p hP hf
      simp only [parseExpressionLoop]
      split
      · split
        · exact ⟨(left, p), rfl, hP, rfl, le_refl _⟩
        · rename_i fn hif
          have hpk := infix_some_ne_eof hif
          have hmu2 := mu_ge_two p hP hpk
          obtain ⟨hqP, hqsrc, hqpos⟩ := nextToken_spec p hP
          have hqmu := nextToken_mu p hP
          have hqcu : ¬ (nextToken p).currToken.type = TokenType.EOF := by
            rw [nextToken_curr]; exact hpk
          cases fn with
          | infixExprFn =>
            obtain ⟨r, hr, hrP, hrsrc, hrpos⟩ := ihInf left (nextToken p) hqP hqcu (by omega)
            rw [hr]
            have hrmu : mu r.2 ≤ mu (nextToken p) := mu_le_of hrsrc hrpos
            refine ((ihLoop precedence r.1 r.2 hrP (by omega)).mono ?_ ?_)
            · rw [hrsrc, hqsrc]
            · omega
          | callExprFn =>
            obtain ⟨r, hr, hrP, hrsrc, hrpos⟩ := ihCall left (nextToken p) hqP hqcu (by omega)
            rw [hr]
            have hrmu : mu r.2 ≤ mu (nextToken p) := mu_le_of hrsrc hrpos
            refine ((ihLoop precedence r.1 r.2 hrP (by omega)).mono ?_ ?_)
            · rw [hrsrc, hqsrc]
            · omega
      · exact ⟨(left, p), rfl, hP, rfl, le_refl _⟩
    · -- parsePrefixExpr
      intro p hP hcu hf
      simp only [parsePrefixExpr]
      have hmu1 := mu_ge_one p hP hcu
      obtain ⟨hqP, hqsrc, hqpos⟩ := nextToken_spec p hP
      have hqmu := nextToken_mu p hP
      obtain ⟨r, hr, hrP, hrsrc, hrpos⟩ := ihPe Prec.UNARY (nextToken p) hqP (by omega)
      rw [hr]
      exact ⟨(some (.PrefixExpr p.currToken p.currToken.literal r.1), r.2), rfl, hrP,
        by dsimp only; rw [hrsrc, hqsrc], by dsimp only; omega⟩
    · -- parseGroupedExpr
      intro p hP hcu hf
      simp only [parseGroupedExpr]
      have hmu1 := mu_ge_one p hP hcu
      obtain ⟨hqP, hqsrc, hqpos⟩ := nextToken_spec p hP
      have hqmu := nextToken_mu p hP
      obtain ⟨r, hr, hrP, hrsrc, hrpos⟩ := ihPe Prec.LOWEST (nextToken p) hqP (by omega)
      rw [hr]
      obtain ⟨heP, hesrc, hepos⟩ := expectPeek_spec r.2 TokenType.RightParen hrP
      show StepOk p (if (expectPeek r.2 TokenType.RightParen).1 = true then
        some (r.1, (expectPeek r.2 TokenType.RightParen).2)
        else some (none, (expectPeek r.2 TokenType.RightParen).2))
      split
      · exact ⟨(r.1, (expectPeek r.2 TokenType.RightParen).2), rfl, heP,
          by dsimp only; rw [hesrc, hrsrc, hqsrc], by dsimp only; omega⟩
      · exact ⟨(none, (expectPeek r.2 TokenType.RightParen).2), rfl, heP,
          by dsimp only; rw [hesrc, hrsrc, hqsrc], by dsimp only; omega⟩
    · -- parseInfixExpr
      intro left p hP hcu hf
      simp only [parseInfixExpr]
      have hmu1 := mu_ge_one p hP hcu
      obtain ⟨hqP, hqsrc, hqpos⟩ := nextToken_spec p hP
      have hqmu := nextToken_mu p hP
      obtain ⟨r, hr, hrP, hrsrc, hrpos⟩ := ihPe (currPrecedence p) (nextToken p) hqP (by omega)
      rw [hr]
      exact ⟨(some (.InfixExpr p.currToken left p.currToken.literal r.1), r.2), rfl, hrP,
        by dsimp only; rw [hrsrc, hqsrc], by dsimp only; omega⟩
    · -- parseCallExpr
      intro function p hP hcu hf
      simp only [parseCallExpr]
      obtain ⟨r, hr, hrP, hrsrc, hrpos⟩ := ihList TokenType.RightParen p hP hcu (by omega)
      rw [hr]
      exact ⟨(some (.CallExpr p.currToken function r.1), r.2), rfl, hrP, hrsrc, hrpos⟩
    · -- parseExpressionList
      intro endType p hP hcu hf
      simp only [parseExpressionList]
      split
      · obtain ⟨hqP, hqsrc, hqpos⟩ := nextToken_spec p hP
        exact ⟨(some [], nextToken p), rfl, hqP, hqsrc, le_of_lt hqpos⟩
      · have hmu1 := mu_ge_one p hP hcu
        obtain ⟨hqP, hqsrc, hqpos⟩ := nextToken_spec p hP
        have hqmu := nextToken_mu p hP
        obtain ⟨r, hr, hrP, hrsrc, hrpos⟩ := ihPe Prec.LOWEST (nextToken p) hqP (by omega)
        rw [hr]
        have hrmu : mu r.2 ≤ mu (nextToken p) := mu_le_of hrsrc hrpos
        refine ((ihLL endType [r.1] r.2 hrP (by omega)).mono ?_ ?_)
        · rw [hrsrc, hqsrc]
        · omega
    · -- parseExpressionListLoop
      intro endType list p hP hf
      simp only [parseExpressionListLoop]
      split
      · rename_i hcomma
        have hpk : ¬ p.peekToken.type = TokenType.EOF := by
          simp only [peekTokenIs, decide_eq_true_eq] at hcomma
          rw [hcomma]
          decide
        have hmu2 := mu_ge_two p hP hpk
        obtain ⟨hq1P, hq1src, hq1pos⟩ := nextToken_spec p hP
        have hq1mu := nextToken_mu p hP
        obtain ⟨hq2P, hq2src, hq2pos⟩ := nextToken_spec (nextToken p) hq1P
        have hq2mu := nextToken_mu (nextToken p) hq1P
        obtain ⟨r, hr, hrP, hrsrc, hrpos⟩ :=
          ihPe Prec.LOWEST (nextToken (nextToken p)) hq2P (by omega)
        rw [hr]
        have hrmu : mu r.2 ≤ mu (nextToken (nextToken p)) := mu_le_of hrsrc hrpos
        refine ((ihLL endType (list ++ [r.1]) r.2 hrP (by omega)).mono ?_ ?_)
        · rw [hrsrc, hq2src, hq1src]
        · omega
      · obtain ⟨heP, hesrc, hepos⟩ := expectPeek_spec p endType hP
        show StepOk p (if (expectPeek p endType).1 = true then
          some (some list, (expectPeek p endType).2)
          else some (none, (expectPeek p endType).2))
        split
        · exact ⟨(some list, (expectPeek p endType).2), rfl, heP, hesrc, hepos⟩
        · exact ⟨(none, (expectPeek p endType).2), rfl, heP, hesrc, hepos⟩
    · -- parseProgramLoop
      intro stmts p hP hf
      simp only [parseProgramLoop]
      split
      · exact ⟨({ stmts := stmts }, p), rfl, hP, rfl, le_refl _⟩
      · rename_i heof
        have hcu : ¬ p.currToken.type = TokenType.EOF := by
          simpa [currTokenIs] using heof
        have hmu1 := mu_ge_one p hP hcu
        have hstmt : StepOk p (parseStatement f p) := by
          simp only [parseStatement, parseExpressionStmt]
          obtain ⟨r, hr, hrP, hrsrc, hrpos⟩ := ihPe Prec.LOWEST p hP (by omega)
          rw [hr]
          show StepOk p (some ({ token := p.currToken, expr := r.1 },
            if peekTokenIs r.2 TokenType.Semicolon = true then nextToken r.2 else r.2))
          by_cases hsemi : peekTokenIs r.2 TokenType.Semicolon = true
          · rw [if_pos hsemi]
            obtain ⟨a, b, c⟩ := nextToken_spec r.2 hrP
            exact ⟨_, rfl, a, by dsimp only; rw [b, hrsrc], by dsimp only; omega⟩
          · rw [if_neg hsemi]
            exact ⟨_, rfl, hrP, hrsrc, hrpos⟩
        obtain ⟨r', hr', hr'P, hr'src, hr'pos⟩ := hstmt
        rw [hr']
        obtain ⟨hzP, hzsrc, hzpos⟩ := nextToken_spec r'.2 hr'P
        have hzmu := nextToken_mu r'.2 hr'P
        have hrmu : mu r'.2 ≤ mu p := mu_le_of hr'src hr'pos
        refine ((ihProg (stmts ++ [r'.1]) (nextToken r'.2) hzP (by omega)).mono ?_ ?_)
        · rw [hzsrc, hr'src]
        · omega


/-- The freshly constructed parser state satisfies the invariant and
carries the original source. -/
theorem New_Pinv (src : String) :
    Pinv (Parser.New (Lexer.New src)) ∧
      (Parser.New (Lexer.New src)).lexer.source = src := by
  have hP0 : Pinv
      { lexer := Lexer.New src, currToken := goZeroToken, peekToken := goZeroToken, errors := [] } := by
    refine ⟨Lexer.New_inv src, ?_, ?_⟩ <;>
      · intro _
        show (Lexer.New src).position ≤ (Lexer.New src).source.length + _
        rw [Lexer.New_position]
        omega
  obtain ⟨h1P, h1src, _⟩ := nextToken_spec _ hP0
  obtain ⟨h2P, h2src, _⟩ := nextToken_spec _ h1P
  refine ⟨h2P, ?_⟩
  rw [show Parser.New (Lexer.New src) = nextToken (nextToken
      { lexer := Lexer.New src, currToken := goZeroToken, peekToken := goZeroToken, errors := [] })
    from rfl]
  rw [h2src, h1src, Lexer.New_source]

theorem mu_le_len (p : Parser) : mu p ≤ p.lexer.source.length + 3 := by
  unfold mu
  omega

end Parser

/-- A fuel linear in the source length always suffices for a full
end-to-end parse: `parseSource` never exhausts it. -/
theorem parseSource_total (src : String) :
    (parseSource (6 * src.length + 26) src).isSome := by
  obtain ⟨hP, hsrc⟩ := Parser.New_Pinv src
  have hmu : Parser.mu (Parser.New (Lexer.New src)) ≤ src.length + 3 := by
    have := Parser.mu_le_len (Parser.New (Lexer.New src))
    rw [hsrc] at this
    exact this
  obtain ⟨r, hr, _⟩ :=
    (Parser.fuel_sufficient (6 * src.length + 26)).2.2.2.2.2.2.2.2 []
      (Parser.New (Lexer.New src)) hP (by omega)
  show (Parser.parseProgramLoop (6 * src.length + 26) []
    (Parser.New (Lexer.New src))).isSome
  rw [hr]
  rfl

theorem data_quote_append (content : String) :
    ("\"" ++ content).data = '"' :: content.data := by
  rw [String.data_append]
  rfl

theorem length_quote_append (content : String) :
    ("\"" ++ content).length = 1 + content.length := by
  show ("\"" ++ content).data.length = _
  rw [data_quote_append, List.length_cons]
  have : content.length = content.data.length := rfl
  omega

theorem data_quote_append_quote (content : String) :
    ("\"" ++ content ++ "\"").data = '"' :: (content.data ++ ['"']) := by
  rw [String.data_append, String.data_append]
  rfl

theorem length_quote_append_quote (content : String) :
    ("\"" ++ content ++ "\"").length = content.length + 2 := by
  show ("\"" ++ content ++ "\"").data.length = _
  rw [data_quote_append_quote, List.length_cons, List.length_append]
  have : content.length = content.data.length := rfl
  simp only [List.length_cons, List.length_nil]
  omega

theorem nextToken_unterminated_string (content : String)
    (h : ∀ c ∈ content.data, ¬ c = '"' ∧ ¬ c = Char.ofNat 0) :
    (Lexer.NextToken (Lexer.New ("\"" ++ content))).2 =
      Token.mk content TokenType.String := by
  have hdata := data_quote_append content
  have hlen := length_quote_append content
  have hclen : content.length = content.data.length := rfl
  have hmain := Lexer.nextToken_opening_quote ("\"" ++ content)
    (by rw [hdata]; rfl) (1 + content.length) (by omega)
    (Or.inr (Lexer.charAt_of_le (by omega)))
    ?good
  case good =>
    intro i h0 hi
    obtain ⟨k, rfl⟩ : ∃ k, i = k + 1 := ⟨i - 1, by omega⟩
    have hk : k < content.data.length := by omega
    have hcharAt : charAt ("\"" ++ content) (k + 1) = content.data.getD k (Char.ofNat 0) := by
      unfold charAt
      rw [if_pos (by omega), hdata, List.getD_cons_succ]
    rw [hcharAt, List.getD_eq_getElem _ _ hk]
    have hmem := List.getElem_mem hk
    obtain ⟨h1, h2⟩ := h _ hmem
    rintro (hc | hc)
    · exact h1 hc
    · exact h2 hc
  rw [hmain]
  have hlit : substrRange ("\"" ++ content) 1 (1 + content.length) = content := by
    unfold substrRange
    rw [hdata]
    have hdrop : ('"' :: content.data).drop 1 = content.data := rfl
    rw [hdrop]
    have htake1 : 1 + content.length - 1 = content.data.length := by omega
    rw [htake1, List.take_length]
  rw [hlit]

theorem nextToken_terminated_string (content : String)
    (h : ∀ c ∈ content.data, ¬ c = '"' ∧ ¬ c = Char.ofNat 0) :
    (Lexer.NextToken (Lexer.New ("\"" ++ content ++ "\""))).2 =
      Token.mk content TokenType.String := by
  have hdata := data_quote_append_quote content
  have hlen := length_quote_append_quote content
  have hclen : content.length = content.data.length := rfl
  have hmain := Lexer.nextToken_opening_quote ("\"" ++ content ++ "\"")
    (by rw [hdata]; rfl) (1 + content.length) (by omega)
    ?stop ?good
  case stop =>
    refine Or.inl ?_
    unfold charAt
    rw [if_pos (by omega), hdata]
    have : (1 : Nat) + content.length = content.data.length + 1 := by omega
    rw [this, List.getD_cons_succ, List.getD_append_right _ _ _ _ (le_refl _)]
    simp
  case good =>
    intro i h0 hi
    obtain ⟨k, rfl⟩ : ∃ k, i = k + 1 := ⟨i - 1, by omega⟩
    have hk : k < content.data.length := by omega
    have hcharAt : charAt ("\"" ++ content ++ "\"") (k + 1) =
        content.data.getD k (Char.ofNat 0) := by
      unfold charAt
      rw [if_pos (by omega), hdata, List.getD_cons_succ, List.getD_append _ _ _ _ hk]
    rw [hcharAt, List.getD_eq_getElem _ _ hk]
    have hmem := List.getElem_mem hk
    obtain ⟨h1, h2⟩ := h _ hmem
    rintro (hc | hc)
    · exact h1 hc
    · exact h2 hc
  rw [hmain]
  have hlit : substrRange ("\"" ++ content ++ "\"") 1 (1 + content.length) = content := by
    unfold substrRange
    rw [hdata]
    have hdrop : ('"' :: (content.data ++ ['"'])).drop 1 = content.data ++ ['"'] := rfl
    rw [hdrop]
    have htake1 : 1 + content.length - 1 = content.data.length := by omega
    rw [htake1, List.take_left]
  rw [hlit]

/-! ## The verified claims -/

/-- The literals of the thirteen binary operators whose token kinds are
registered with the `parseInfixExpr` infix handler in `parser.New`. -/
def infixOperatorLiterals : List String :=
  ["+", "-", "*", "/", "%", "==", "!=", ">=", "<=", "<", ">", "&&", "||"]

/-- Single-token atomic operands used to exercise operator chains. -/
def operandLiterals : List String := ["1", "2", "3"]

/-- C1: parsing `"1 + 2 * 3"` yields a program rendering as
`"(1 + (2 * 3))"`, and parsing `"(1 + 2) * 3"` yields `"((1 + 2) * 3)"`:
multiplicative operators bind more tightly than additive ones, and an
explicit parenthesized group overrides that binding. -/
theorem C1_precedence_and_grouping :
    renderSource 100 "1 + 2 * 3" = some (some "(1 + (2 * 3))") ∧
      renderSource 100 "(1 + 2) * 3" = some (some "((1 + 2) * 3)") :=
  ⟨rfl, rfl⟩

set_option maxHeartbeats 4000000 in
/-- C2: every binary operator registered with an infix handler chains
left-associatively: lexing each such operator literal yields a token kind
registered with the `parseInfixExpr` handler, parsing `"a op b op c"`
for atomic operands renders as `"((a op b) op c)"`, and in particular
`"1 - 2 - 3"` renders as `"((1 - 2) - 3)"`. -/
theorem C2_left_associative_chaining :
    (∀ op ∈ infixOperatorLiterals,
      infixParseFns (Lexer.NextToken (Lexer.New op)).2.type = some InfixFn.infixExprFn) ∧
    (∀ op ∈ infixOperatorLiterals, ∀ a ∈ operandLiterals, ∀ b ∈ operandLiterals,
      ∀ c ∈ operandLiterals,
      renderSource 100 (a ++ " " ++ op ++ " " ++ b ++ " " ++ op ++ " " ++ c) =
        some (some ("((" ++ a ++ " " ++ op ++ " " ++ b ++ ") " ++ op ++ " " ++ c ++ ")"))) ∧
    renderSource 100 "1 - 2 - 3" = some (some "((1 - 2) - 3)") :=
  ⟨by decide, by decide, rfl⟩

/-- Witness for C2 at the operator `"-"` and operands `1`, `2`, `3`. -/
theorem C2_left_associative_chaining_witness :
    ("-" ∈ infixOperatorLiterals ∧ "1" ∈ operandLiterals ∧ "2" ∈ operandLiterals ∧
      "3" ∈ operandLiterals) ∧
    renderSource 100 ("1" ++ " " ++ "-" ++ " " ++ "2" ++ " " ++ "-" ++ " " ++ "3") =
      some (some ("((" ++ "1" ++ " " ++ "-" ++ " " ++ "2" ++ ") " ++ "-" ++ " " ++ "3" ++ ")")) :=
  ⟨⟨by decide, by decide, by decide, by decide⟩,
    C2_left_associative_chaining.2.1 "-" (by decide) "1" (by decide) "2" (by decide)
      "3" (by decide)⟩

/-- C3: `ParseProgram` never fails fatally: a fuel linear in the source
length suffices for every input (the fueled embedding returns a value, a
possibly partial program), and parsing the dangling-operator source
`"1 +"` still returns a program while appending at least one diagnostic. -/
theorem C3_total_with_diagnostics :
    (∀ src : String, (parseSource (6 * src.length + 26) src).isSome) ∧
    (∃ prog pst, parseSource 100 "1 +" = some (prog, pst) ∧ 1 ≤ pst.errors.length) :=
  ⟨parseSource_total, by exact ⟨_, _, rfl, by decide⟩⟩

/-- C4: the lexer's end-of-input state is an idempotent terminal state:
after at most `length source` calls, every further `NextToken` call
returns exactly the end-of-input token (kind `EOF`, empty literal). -/
theorem C4_lexer_eof_idempotent (src : String) (k : Nat) (h : src.length ≤ k) :
    (Lexer.NextToken (Lexer.advanceN (Lexer.New src) k)).2 = eofToken := by
  obtain ⟨hInv, hsrc, hpos⟩ := Lexer.advanceN_facts (Lexer.New src) (Lexer.New_inv src) k
  apply Lexer.NextToken_eof _ hInv
  rw [hsrc, Lexer.New_source]
  rw [Lexer.New_position] at hpos
  omega

/-- Witness for C4 on the source `"ab"` after two calls. -/
theorem C4_lexer_eof_idempotent_witness :
    ("ab" : String).length ≤ 2 ∧
      (Lexer.NextToken (Lexer.advanceN (Lexer.New "ab") 2)).2 = eofToken :=
  ⟨by decide, C4_lexer_eof_idempotent "ab" 2 (by decide)⟩

/-- C5: a string literal opened by a double quote and never closed lexes
to a `String` token whose literal is exactly the text from the symbol
after the opening quote to the end of the input, with no error or
illegal token; with a closing quote the literal is the content strictly
between the two quotes.  (`content` ranges over texts without a quote or
a NUL byte, the lexer's end sentinel.) -/
theorem C5_string_literal_lenient (content : String)
    (h : ∀ c ∈ content.data, ¬ c = '"' ∧ ¬ c = Char.ofNat 0) :
    (Lexer.NextToken (Lexer.New ("\"" ++ content))).2 =
      Token.mk content TokenType.String ∧
    (Lexer.NextToken (Lexer.New ("\"" ++ content ++ "\""))).2 =
      Token.mk content TokenType.String :=
  ⟨nextToken_unterminated_string content h, nextToken_terminated_string content h⟩

/-- Witness for C5 at the content `"abc"`. -/
theorem C5_string_literal_lenient_witness :
    (∀ c ∈ ("abc" : String).data, ¬ c = '"' ∧ ¬ c = Char.ofNat 0) ∧
    ((Lexer.NextToken (Lexer.New ("\"" ++ "abc"))).2 = Token.mk "abc" TokenType.String ∧
      (Lexer.NextToken (Lexer.New ("\"" ++ "abc" ++ "\""))).2 =
        Token.mk "abc" TokenType.String) :=
  ⟨by decide, C5_string_literal_lenient "abc" (by decide)⟩

/-- C6: the precedence assignment is, in strictly increasing binding
order, logical and/or < equality < relational-with-equality <
relational < additive < multiplicative < unary-prefix < call < index;
in particular `>=` and `<=` bind strictly less tightly than `>` and `<`. -/
theorem C6_precedence_table :
    (Prec.ANDOR < Prec.EQUALS ∧ Prec.EQUALS < Prec.LESSGREATEREQUAL ∧
      Prec.LESSGREATEREQUAL < Prec.LESSGREATER ∧ Prec.LESSGREATER < Prec.SUM ∧
      Prec.SUM < Prec.PRODUCT ∧ Prec.PRODUCT < Prec.UNARY ∧ Prec.UNARY < Prec.CALL ∧
      Prec.CALL < Prec.INDEX) ∧
    (precedences TokenType.And = some Prec.ANDOR ∧
      precedences TokenType.Or = some Prec.ANDOR ∧
      precedences TokenType.EqualTo = some Prec.EQUALS ∧
      precedences TokenType.NotEqualTo = some Prec.EQUALS ∧
      precedences TokenType.GreaterThanEqualTo = some Prec.LESSGREATEREQUAL ∧
      precedences TokenType.LessThanEqualTo = some Prec.LESSGREATEREQUAL ∧
      precedences TokenType.LessThan = some Prec.LESSGREATER ∧
      precedences TokenType.GreaterThan = some Prec.LESSGREATER ∧
      precedences TokenType.Plus = some Prec.SUM ∧
      precedences TokenType.Minus = some Prec.SUM ∧
      precedences TokenType.Star = some Prec.PRODUCT ∧
      precedences TokenType.Slash = some Prec.PRODUCT ∧
      precedences TokenType.Modulo = some Prec.PRODUCT ∧
      precedences TokenType.LeftParen = some Prec.CALL ∧
      precedences TokenType.LeftSquareBracket = some Prec.INDEX) := by
  decide

/-- C7: parsing `"foo(1, 2 + 3)"` yields a call node rendering as
`"foo(1, (2 + 3))"` (comma-space separation, no trailing separator), and
parsing `"foo()"` yields a call node with an empty (non-nil) argument
list rendering as `"foo()"`. -/
theorem C7_call_parsing :
    renderSource 100 "foo(1, 2 + 3)" = some (some "foo(1, (2 + 3))") ∧
    renderSource 100 "foo()" = some (some "foo()") ∧
    (∃ pst, parseSource 100 "foo()" = some (⟨[Stmt.mk ⟨"foo", TokenType.Identifier⟩
      (some (.CallExpr ⟨"(", TokenType.LeftParen⟩
        (some (.Identifier ⟨"foo", TokenType.Identifier⟩ "foo")) (some [])))]⟩, pst)) :=
  ⟨rfl, rfl, ⟨_, rfl⟩⟩

/-- C8: the lexer state invariant holds after construction and after
every `NextToken` call: `readPosition = position + 1`, and the current
symbol is `source[position]` when `position < length source` and the end
sentinel (byte 0) otherwise (see `Lexer.Inv`). -/
theorem C8_lexer_state_invariant :
    (∀ src : String, Lexer.Inv (Lexer.New src)) ∧
    (∀ l : Lexer, Lexer.Inv l → Lexer.Inv (Lexer.NextToken l).1) :=
  ⟨Lexer.New_inv, Lexer.NextToken_inv⟩

/-- Witness for C8 on concrete lexer states. -/
theorem C8_lexer_state_invariant_witness :
    Lexer.Inv (Lexer.New "ab") ∧ Lexer.Inv (Lexer.NextToken (Lexer.New "x + 1")).1 :=
  ⟨C8_lexer_state_invariant.1 "ab",
    C8_lexer_state_invariant.2 (Lexer.New "x + 1") (by decide)⟩

/-- C9: lexing and parsing any finite input terminates in time linear in
the input length: every `NextToken` call strictly advances the lexer
position, and a fuel linear in the source length (`6·len + 26` steps of
the fueled parser) always suffices for `ParseProgram` to return. -/
theorem C9_termination_linear :
    (∀ l : Lexer, Lexer.Inv l → l.position < (Lexer.NextToken l).1.position) ∧
    (∀ src : String, (parseSource (6 * src.length + 26) src).isSome) :=
  ⟨Lexer.NextToken_pos_lt, parseSource_total⟩

/-- Witness for C9 on concrete inputs. -/
theorem C9_termination_linear_witness :
    (Lexer.New "ab").position < (Lexer.NextToken (Lexer.New "ab")).1.position ∧
      (parseSource (6 * ("1 + 2" : String).length + 26) "1 + 2").isSome :=
  ⟨C9_termination_linear.1 (Lexer.New "ab") (by decide),
    C9_termination_linear.2 "1 + 2"⟩

/-- C10: the canonical rendering is not total on parser outputs: parsing
the lone `"-"` is accepted (with diagnostics) and yields a prefix node
with a null operand, parsing `"1 +"` yields an infix node with a null
right operand, and invoking the rendering on the returned programs
dereferences the null operand and crashes (modelled as `none`) instead
of producing a string. -/
theorem C10_rendering_crashes_on_null_operand :
    (∃ pst, parseSource 100 "-" = some (⟨[Stmt.mk ⟨"-", TokenType.Minus⟩
        (some (.PrefixExpr ⟨"-", TokenType.Minus⟩ "-" none))]⟩, pst)) ∧
    renderSource 100 "-" = some none ∧
    (∃ v pst, parseSource 100 "1 +" = some (⟨[Stmt.mk ⟨"1", TokenType.Number⟩
        (some (.InfixExpr ⟨"+", TokenType.Plus⟩
          (some (.NumberLiteral ⟨"1", TokenType.Number⟩ v)) "+" none))]⟩, pst)) ∧
    renderSource 100 "1 +" = some none := by
  exact ⟨⟨_, rfl⟩, rfl, ⟨_, _, rfl⟩, rfl⟩

end LlvmLang
